import Mathlib

/-!
# Verification of the ELF header marshaller (`elf.py`)

This file is a shallow embedding of the core of `elf.py`: the schema-driven
binary marshaller (`BinaryMarshaller.read` / `write` / `readStruct` /
`writeStruct`) and the header parse/re-emit protocol (`ELF._parse`,
`ELF.serialize`, `ELF.read`).

Modelling conventions:
* A byte buffer is a `List Nat`; real buffers satisfy `isBytes` (every
  element `< 256`), matching Python `bytes`.
* The seekable file (`io.BytesIO`) is an `MState`: the buffer plus the
  cursor position.  Reads do not change the buffer; writes overwrite in
  place and zero-extend past the end, as `BytesIO` does.
* Fallible operations return `Except Err _`.  `Err.truncated` is the
  `RuntimeError("Not enough bytes ...")` raised by `read`;
  `Err.magicMismatch` and `Err.badVersion` are the two `assert`s in
  `ELF._parse`; `Err.unknownClass` is the `RuntimeError` for an unknown
  `EI_CLASS`; `Err.schemaMismatch` is a `struct.error` raised by
  `struct.pack` on the write path; `Err.typeError` covers the remaining
  Python exceptions (`KeyError` on a missing dict key / type-name,
  `IndexError` on `self.phdrs[i]`, `TypeError` on a bad value shape).
* Schemas are ordered field lists, as in the source.  The source resolves
  the nested type name `"Elf_Ident"` through the `schemes` list at run
  time; the only type names in `schemes` that ever occur as a field type
  are nested one level deep and contain only primitive fields, so the
  embedding resolves that nesting statically: a `FlatScheme` has only
  primitive fields and a `Scheme` field is a primitive or a nested flat
  sub-scheme (`FType.sub`).
* Python `struct` format values: integers are `PValue.int`, a `char`
  block is `PValue.bytes`, and a value read by the nested-scheme
  dispatch is a field map, `Value.struct`.  A float (`'f'`/`'d'`) is
  kept as its raw bit pattern, `PValue.flt`.  That last choice is a
  deliberate abstraction, not a faithful model: it erases Python's
  float32→double widening and its NaN behaviour (`struct.pack` quiets a
  signaling NaN, so pack∘unpack is not byte-identity, and `nan != nan`,
  so a NaN field map never equals its re-read copy).  For this reason
  the well-formedness predicate `wfPrimB` used by every round-trip
  theorem excludes float fields; no schema in the source's registry
  contains one, so nothing proved here depends on the float codec.
-/

/-- Errors of the marshaller and the parse/serialize protocol. -/
inductive Err where
  | truncated
  | magicMismatch
  | badVersion
  | unknownClass
  | schemaMismatch
  | typeError
deriving DecidableEq, Repr

/-- A primitive wire value: an integer, a float (kept as its bit
pattern), or a raw byte block. -/
inductive PValue where
  | int : Int → PValue
  | flt : Nat → PValue
  | bytes : List Nat → PValue
deriving DecidableEq, Repr

/-- An ordered field-name/value association produced by reading a flat
scheme (models the Python `dict`, whose insertion order is the schema
order). -/
abbrev FlatMap := List (String × PValue)

/-- A field value of a top-level scheme: a primitive value or a nested
sub-structure value. -/
inductive Value where
  | prim : PValue → Value
  | struct : FlatMap → Value
deriving DecidableEq, Repr

/-- An ordered field map for a top-level scheme. -/
abbrev FieldMap := List (String × Value)

/-- A flat schema: ordered `(field name, type name, repeat count)`
triples, exactly as the Python schema lists. -/
abbrev FlatScheme := List (String × String × Nat)

/-- A field type of a top-level schema: a primitive type name, or a
nested flat sub-scheme (the source's `schemes` indirection, resolved
statically). -/
inductive FType where
  | prim : String → FType
  | sub : FlatScheme → FType
deriving DecidableEq, Repr

/-- A top-level schema. -/
abbrev Scheme := List (String × FType × Nat)

/-- The `BinaryMarshaller.typeNames` dictionary: well-known type names
and their `struct` format characters. -/
def typeNameTable : List (String × Char) := [
  ("int8", 'b'),
  ("uint8", 'B'),
  ("int16", 'h'),
  ("uint16", 'H'),
  ("int32", 'i'),
  ("uint32", 'I'),
  ("int64", 'q'),
  ("uint64", 'Q'),
  ("float", 'f'),
  ("double", 'd'),
  ("char", 's'),
  ("Elf32_Half", 'H'),
  ("Elf32_Word", 'I'),
  ("Elf32_Off", 'I'),
  ("Elf32_Addr", 'I'),
  ("Elf64_Half", 'H'),
  ("Elf64_Word", 'I'),
  ("Elf64_Off", 'Q'),
  ("Elf64_Addr", 'Q'),
  ("Elf64_Xword", 'Q')]

/-- Dictionary lookup in the type-name table. -/
def lookupT (m : List (String × Char)) (k : String) : Option Char :=
  match m with
  | [] => none
  | (n, v) :: rest => if n = k then some v else lookupT rest k

/-- `self.typeNames[typeName]`: `none` models the Python `KeyError`. -/
def typeNames (t : String) : Option Char := lookupT typeNameTable t

/-- `struct.calcsize` for the format characters used by the catalog. -/
def fmtSize (f : Char) : Nat :=
  if f = 'b' ∨ f = 'B' ∨ f = 's' then 1
  else if f = 'h' ∨ f = 'H' then 2
  else if f = 'i' ∨ f = 'I' ∨ f = 'f' then 4
  else if f = 'q' ∨ f = 'Q' ∨ f = 'd' then 8
  else 0

/-- Format characters decoded as signed two's-complement integers. -/
def fmtSigned (f : Char) : Bool :=
  f = 'b' ∨ f = 'h' ∨ f = 'i' ∨ f = 'q'

/-- Format characters denoting IEEE floats (kept as bit patterns). -/
def fmtFloat (f : Char) : Bool :=
  f = 'f' ∨ f = 'd'

/-- Little-endian value of a byte list. -/
def natFromLE : List Nat → Nat
  | [] => 0
  | b :: rest => b + 256 * natFromLE rest

/-- Little-endian byte list (`w` bytes) of a natural number. -/
def natToLE : Nat → Nat → List Nat
  | 0, _ => []
  | Nat.succ w, n => n % 256 :: natToLE w (n / 256)

/-- Two's-complement reinterpretation of a `w`-byte unsigned value. -/
def toSigned (w n : Nat) : Int :=
  if n < 2 ^ (8 * w - 1) then (n : Int) else (n : Int) - 2 ^ (8 * w)

/-- Decode the first value of a numeric `struct.unpack`: the byte order
parameter is honoured exactly as in `BinaryMarshaller.read`, which
treats `ELFDATA2LSB = 1` as little-endian and anything else as
big-endian. -/
def decodeNum (f : Char) (endian : Nat) (bs : List Nat) : PValue :=
  let n := if endian = 1 then natFromLE bs else natFromLE bs.reverse
  if fmtFloat f then .flt n
  else if fmtSigned f then .int (toSigned (fmtSize f) n)
  else .int (n : Int)

/-- The marshaller's seekable buffer: the owned bytes plus the cursor. -/
structure MState where
  buf : List Nat
  pos : Nat
deriving DecidableEq, Repr

/-- `count * struct.calcsize(typeFormat)` for a primitive field. -/
def primSize (t : String) (count : Nat) : Nat :=
  match typeNames t with
  | some f => count * fmtSize f
  | none => 0

/-- `BinaryMarshaller.read` for a primitive (non-scheme) type name:
consume `count * width` bytes from the cursor, fail with `truncated`
when fewer bytes remain, and return the single first decoded value (the
source's `struct.unpack(...)[0]`); a `char` block returns the raw bytes.
A numeric read with repeat count `0` models the `IndexError` of
`(...)[0]` on an empty unpack result. -/
def readPrim (t : String) (count endian : Nat) (s : MState) :
    Except Err (PValue × MState) :=
  match typeNames t with
  | none => .error .typeError
  | some f =>
    let size := count * fmtSize f
    if size = 0 ∨ s.pos + size ≤ s.buf.length then
      let chunk := (s.buf.drop s.pos).take size
      if f = 's' then .ok (.bytes chunk, ⟨s.buf, s.pos + size⟩)
      else if count = 0 then .error .typeError
      else .ok (decodeNum f endian (chunk.take (fmtSize f)), ⟨s.buf, s.pos + size⟩)
    else .error .truncated

/-- The value a successful primitive read produces from its consumed
chunk: raw bytes for a `char` block, otherwise the first decoded
number.  (`readPrim` returns exactly this on success; the lemma
`readPrim_eq_of_le` below proves it.) -/
def primVal (f : Char) (e : Nat) (chunk : List Nat) : PValue :=
  if f = 's' then .bytes chunk else decodeNum f e (chunk.take (fmtSize f))

/-- Dict lookup on a flat field map (`m[name]`). -/
def lookupP (m : FlatMap) (k : String) : Option PValue :=
  match m with
  | [] => none
  | (n, v) :: rest => if n = k then some v else lookupP rest k

/-- Dict lookup on a top-level field map (`m[name]`). -/
def lookupV (m : FieldMap) (k : String) : Option Value :=
  match m with
  | [] => none
  | (n, v) :: rest => if n = k then some v else lookupV rest k

/-- `BinaryMarshaller.readStruct` over a flat schema: apply `read` to
each field in schema order, producing the ordered field map. -/
def readStruct (fs : FlatScheme) (endian : Nat) (s : MState) :
    Except Err (FlatMap × MState) :=
  match fs with
  | [] => .ok ([], s)
  | (name, t, count) :: rest =>
    match readPrim t count endian s with
    | .error e => .error e
    | .ok (v, s1) =>
      match readStruct rest endian s1 with
      | .error e => .error e
      | .ok (m, s2) => .ok ((name, v) :: m, s2)

/-- `BinaryMarshaller.read` including the `schemes` dispatch: a nested
scheme type is read with `readStruct` (the repeat count is ignored by
the source for scheme names), any other name is a primitive read. -/
def readField (t : FType) (count endian : Nat) (s : MState) :
    Except Err (Value × MState) :=
  match t with
  | .prim name =>
    match readPrim name count endian s with
    | .error e => .error e
    | .ok (v, s1) => .ok (.prim v, s1)
  | .sub fs =>
    match readStruct fs endian s with
    | .error e => .error e
    | .ok (m, s1) => .ok (.struct m, s1)

/-- `BinaryMarshaller.readStruct` over a top-level schema. -/
def readStructEx (sch : Scheme) (endian : Nat) (s : MState) :
    Except Err (FieldMap × MState) :=
  match sch with
  | [] => .ok ([], s)
  | (name, t, count) :: rest =>
    match readField t count endian s with
    | .error e => .error e
    | .ok (v, s1) =>
      match readStructEx rest endian s1 with
      | .error e => .error e
      | .ok (m, s2) => .ok ((name, v) :: m, s2)

/-- `struct.pack` for one primitive field: encodes the value under the
given byte order (little iff `endian = 1`), raising `schemaMismatch`
exactly where `struct.pack` raises `struct.error` — a single value
supplied for a repeat count other than 1, an out-of-range integer, or a
value of the wrong shape. -/
def encodePrim (t : String) (count endian : Nat) (v : PValue) :
    Except Err (List Nat) :=
  match typeNames t with
  | none => .error .typeError
  | some f =>
    if f = 's' then
      match v with
      | .bytes bs => .ok (bs.take count ++ List.replicate (count - bs.length) 0)
      | _ => .error .schemaMismatch
    else if count ≠ 1 then .error .schemaMismatch
    else
      let w := fmtSize f
      match v with
      | .int i =>
        if fmtFloat f then .error .schemaMismatch
        else if fmtSigned f then
          if -(2 ^ (8 * w - 1) : Int) ≤ i ∧ i < 2 ^ (8 * w - 1) then
            let bs := natToLE w (i % (2 ^ (8 * w))).toNat
            .ok (if endian = 1 then bs else bs.reverse)
          else .error .schemaMismatch
        else
          if 0 ≤ i ∧ i < (2 ^ (8 * w) : Int) then
            let bs := natToLE w i.toNat
            .ok (if endian = 1 then bs else bs.reverse)
          else .error .schemaMismatch
      | .flt n =>
        if fmtFloat f then
          let bs := natToLE w n
          .ok (if endian = 1 then bs else bs.reverse)
        else .error .schemaMismatch
      | .bytes _ => .error .schemaMismatch

/-- The byte string written by `BinaryMarshaller.writeStruct` over a
flat schema: each schema field is looked up in the map and written in
schema order (a missing key is the Python `KeyError`). -/
def encodeStruct (fs : FlatScheme) (endian : Nat) (m : FlatMap) :
    Except Err (List Nat) :=
  match fs with
  | [] => .ok []
  | (name, t, count) :: rest =>
    match lookupP m name with
    | none => .error .typeError
    | some v =>
      match encodePrim t count endian v with
      | .error e => .error e
      | .ok bs =>
        match encodeStruct rest endian m with
        | .error e => .error e
        | .ok bs2 => .ok (bs ++ bs2)

/-- `BinaryMarshaller.write` including the `schemes` dispatch (for a
scheme name the count is ignored and the value must be a field map). -/
def encodeField (t : FType) (count endian : Nat) (v : Value) :
    Except Err (List Nat) :=
  match t with
  | .prim name =>
    match v with
    | .prim pv => encodePrim name count endian pv
    | .struct _ => .error .schemaMismatch
  | .sub fs =>
    match v with
    | .struct m => encodeStruct fs endian m
    | .prim _ => .error .typeError

/-- The byte string written by `BinaryMarshaller.writeStruct` over a
top-level schema. -/
def encodeStructEx (sch : Scheme) (endian : Nat) (m : FieldMap) :
    Except Err (List Nat) :=
  match sch with
  | [] => .ok []
  | (name, t, count) :: rest =>
    match lookupV m name with
    | none => .error .typeError
    | some v =>
      match encodeField t count endian v with
      | .error e => .error e
      | .ok bs =>
        match encodeStructEx rest endian m with
        | .error e => .error e
        | .ok bs2 => .ok (bs ++ bs2)

/-- `BytesIO.write` at an absolute position: overwrite in place,
zero-filling any gap when the cursor was seeked past the end. -/
def writeAt (buf : List Nat) (pos : Nat) (bs : List Nat) : List Nat :=
  let full := buf ++ List.replicate (pos - buf.length) 0
  full.take pos ++ bs ++ full.drop (pos + bs.length)

/-- `writeStruct` on the seekable buffer (flat schema): encode, then
write at the cursor and advance it. -/
def writeStruct (fs : FlatScheme) (endian : Nat) (m : FlatMap) (s : MState) :
    Except Err MState :=
  match encodeStruct fs endian m with
  | .error e => .error e
  | .ok bs => .ok ⟨writeAt s.buf s.pos bs, s.pos + bs.length⟩

/-- `writeStruct` on the seekable buffer (top-level schema). -/
def writeStructEx (sch : Scheme) (endian : Nat) (m : FieldMap) (s : MState) :
    Except Err MState :=
  match encodeStructEx sch endian m with
  | .error e => .error e
  | .ok bs => .ok ⟨writeAt s.buf s.pos bs, s.pos + bs.length⟩

/-! ## The schema registry (verbatim from the source tables) -/

/-- `ELFMAG = b"\x7fELF"`. -/
def ELFMAG : List Nat := [0x7f, 0x45, 0x4c, 0x46]

/-- `Elf_Ident`. -/
def Elf_Ident : FlatScheme := [
  ("ELF_MAG",       "char", 4),
  ("EI_CLASS",      "uint8", 1),
  ("EI_DATA",       "uint8", 1),
  ("EI_VERSION",    "uint8", 1),
  ("EI_OSABI",      "uint8", 1),
  ("EI_ABIVERSION", "uint8", 1),
  ("EI_PAD",        "char", 7)]

/-- `Elf32_Ehdr` (its first field is the nested identification block). -/
def Elf32_Ehdr : Scheme := [
  ("e_ident",     .sub Elf_Ident, 1),
  ("e_type",      .prim "Elf32_Half", 1),
  ("e_machine",   .prim "Elf32_Half", 1),
  ("e_version",   .prim "Elf32_Word", 1),
  ("e_entry",     .prim "Elf32_Addr", 1),
  ("e_phoff",     .prim "Elf32_Off", 1),
  ("e_shoff",     .prim "Elf32_Off", 1),
  ("e_flags",     .prim "Elf32_Word", 1),
  ("e_ehsize",    .prim "Elf32_Half", 1),
  ("e_phentsize", .prim "Elf32_Half", 1),
  ("e_phnum",     .prim "Elf32_Half", 1),
  ("e_shentsize", .prim "Elf32_Half", 1),
  ("e_shnum",     .prim "Elf32_Half", 1),
  ("e_shstrndx",  .prim "Elf32_Half", 1)]

/-- `Elf64_Ehdr`. -/
def Elf64_Ehdr : Scheme := [
  ("e_ident",     .sub Elf_Ident, 1),
  ("e_type",      .prim "Elf64_Half", 1),
  ("e_machine",   .prim "Elf64_Half", 1),
  ("e_version",   .prim "Elf64_Word", 1),
  ("e_entry",     .prim "Elf64_Addr", 1),
  ("e_phoff",     .prim "Elf64_Off", 1),
  ("e_shoff",     .prim "Elf64_Off", 1),
  ("e_flags",     .prim "Elf64_Word", 1),
  ("e_ehsize",    .prim "Elf64_Half", 1),
  ("e_phentsize", .prim "Elf64_Half", 1),
  ("e_phnum",     .prim "Elf64_Half", 1),
  ("e_shentsize", .prim "Elf64_Half", 1),
  ("e_shnum",     .prim "Elf64_Half", 1),
  ("e_shstrndx",  .prim "Elf64_Half", 1)]

/-- `Elf32_Phdr`. -/
def Elf32_Phdr : FlatScheme := [
  ("p_type",   "Elf32_Word", 1),
  ("p_offset", "Elf32_Off", 1),
  ("p_vaddr",  "Elf32_Addr", 1),
  ("p_paddr",  "Elf32_Addr", 1),
  ("p_filesz", "Elf32_Word", 1),
  ("p_memsz",  "Elf32_Word", 1),
  ("p_flags",  "Elf32_Word", 1),
  ("p_align",  "Elf32_Word", 1)]

/-- `Elf64_Phdr` (note the relocated `p_flags`). -/
def Elf64_Phdr : FlatScheme := [
  ("p_type",   "Elf64_Word", 1),
  ("p_flags",  "Elf64_Word", 1),
  ("p_offset", "Elf64_Off", 1),
  ("p_vaddr",  "Elf64_Addr", 1),
  ("p_paddr",  "Elf64_Addr", 1),
  ("p_filesz", "Elf64_Xword", 1),
  ("p_memsz",  "Elf64_Xword", 1),
  ("p_align",  "Elf64_Xword", 1)]

/-- `Elf32_Shdr`. -/
def Elf32_Shdr : FlatScheme := [
  ("sh_name",      "Elf32_Word", 1),
  ("sh_type",      "Elf32_Word", 1),
  ("sh_flags",     "Elf32_Word", 1),
  ("sh_addr",      "Elf32_Addr", 1),
  ("sh_offset",    "Elf32_Off", 1),
  ("sh_size",      "Elf32_Word", 1),
  ("sh_link",      "Elf32_Word", 1),
  ("sh_info",      "Elf32_Word", 1),
  ("sh_addralign", "Elf32_Word", 1),
  ("sh_entsize",   "Elf32_Word", 1)]

/-- `Elf64_Shdr`. -/
def Elf64_Shdr : FlatScheme := [
  ("sh_name",      "Elf64_Word", 1),
  ("sh_type",      "Elf64_Word", 1),
  ("sh_flags",     "Elf64_Xword", 1),
  ("sh_addr",      "Elf64_Addr", 1),
  ("sh_offset",    "Elf64_Off", 1),
  ("sh_size",      "Elf64_Xword", 1),
  ("sh_link",      "Elf64_Word", 1),
  ("sh_info",      "Elf64_Word", 1),
  ("sh_addralign", "Elf64_Xword", 1),
  ("sh_entsize",   "Elf64_Xword", 1)]

/-! ## The header parse / re-emit protocol -/

/-- Integer field of a flat map as a `Nat` (the source uses these dict
values directly as ints; every such field is read from an unsigned
format, so the value is a nonnegative integer and the default branch is
unreachable for maps produced by a read). -/
def getNatP (m : FlatMap) (k : String) : Nat :=
  match lookupP m k with
  | some (.int i) => i.toNat
  | _ => 0

/-- Integer field of a top-level map as a `Nat` (same remark as
`getNatP`). -/
def getNatV (m : FieldMap) (k : String) : Nat :=
  match lookupV m k with
  | some (.prim (.int i)) => i.toNat
  | _ => 0

/-- Result of the bootstrap part of `ELF._parse` (identification block,
magic/version asserts, class dispatch, full header read). -/
structure HeadInfo where
  e_ident : FlatMap
  ehdr : FieldMap
  cls : Nat
  endian : Nat
  st : MState
deriving DecidableEq, Repr

/-- Lines 488-505 of `ELF._parse`: read the identification block at
offset 0 under the fixed nominal byte order `ELFDATA2MSB = 2`, check
magic and version, capture the data-encoding byte, re-seek to 0 and read
the class-selected header schema under the captured byte order. -/
def parseHead (buf : List Nat) : Except Err HeadInfo :=
  match readStruct Elf_Ident 2 ⟨buf, 0⟩ with
  | .error e => .error e
  | .ok (eident, _) =>
    if lookupP eident "ELF_MAG" = some (.bytes ELFMAG) then
      if lookupP eident "EI_VERSION" = some (.int 1) then
        let endian := getNatP eident "EI_DATA"
        if lookupP eident "EI_CLASS" = some (.int 1) then
          match readStructEx Elf32_Ehdr endian ⟨buf, 0⟩ with
          | .error e => .error e
          | .ok (ehdr, s) => .ok ⟨eident, ehdr, 1, endian, s⟩
        else if lookupP eident "EI_CLASS" = some (.int 2) then
          match readStructEx Elf64_Ehdr endian ⟨buf, 0⟩ with
          | .error e => .error e
          | .ok (ehdr, s) => .ok ⟨eident, ehdr, 2, endian, s⟩
        else .error .unknownClass
      else .error .badVersion
    else .error .magicMismatch

/-- The loop `for _ in range(n): readStruct(...)` collecting entries in
file order. -/
def readN (fs : FlatScheme) (endian n : Nat) (s : MState) :
    Except Err (List FlatMap × MState) :=
  match n with
  | 0 => .ok ([], s)
  | Nat.succ k =>
    match readStruct fs endian s with
    | .error e => .error e
    | .ok (m, s1) =>
      match readN fs endian k s1 with
      | .error e => .error e
      | .ok (ms, s2) => .ok (m :: ms, s2)

/-- The parsed header model (`self.e_ident`, `self.ehdr`, `self.phdrs`,
`self.shdrs`). -/
structure ElfModel where
  e_ident : FlatMap
  ehdr : FieldMap
  phdrs : List FlatMap
  shdrs : List FlatMap
deriving DecidableEq, Repr

/-- `ELF._parse` (lines 488-519): bootstrap, then seek to `e_phoff` and
read `e_phnum` program headers of the class-selected flavour, then seek
to `e_shoff` and read `e_shnum` section headers.  The returned `MState`
is the file state as `_parse` leaves it (its cursor sits after the last
section-header byte, a fact `serialize` then depends on). -/
def parseELF (buf : List Nat) : Except Err (ElfModel × MState) :=
  match parseHead buf with
  | .error e => .error e
  | .ok info =>
    let elfP := if info.cls = 1 then Elf32_Phdr else Elf64_Phdr
    let elfS := if info.cls = 1 then Elf32_Shdr else Elf64_Shdr
    match readN elfP info.endian (getNatV info.ehdr "e_phnum")
        ⟨info.st.buf, getNatV info.ehdr "e_phoff"⟩ with
    | .error e => .error e
    | .ok (phdrs, s2) =>
      match readN elfS info.endian (getNatV info.ehdr "e_shnum")
          ⟨s2.buf, getNatV info.ehdr "e_shoff"⟩ with
      | .error e => .error e
      | .ok (shdrs, s3) => .ok (⟨info.e_ident, info.ehdr, phdrs, shdrs⟩, s3)

/-- The loop `for i in range(n): writeStruct(xs[i], ...)`; an index
beyond the sequence is the Python `IndexError`. -/
def writeN (fs : FlatScheme) (endian : Nat) (ms : List FlatMap) (n : Nat)
    (s : MState) : Except Err MState :=
  match n with
  | 0 => .ok s
  | Nat.succ k =>
    match ms with
    | [] => .error .typeError
    | m :: rest =>
      match writeStruct fs endian m s with
      | .error e => .error e
      | .ok s1 => writeN fs endian rest k s1

/-- The class-resolved body of `ELF.serialize` (lines 558-568): write
the file header at the current cursor — the source performs no seek
before this write and passes no byte order, so the header is written at
whatever position the cursor holds, in the default little-endian order —
then seek to `e_phoff` and write the program headers, then seek to
`e_shoff` and write the section headers, both under the captured byte
order. -/
def serializeBody (eh : Scheme) (ph sh : FlatScheme) (mo : ElfModel)
    (s : MState) : Except Err MState :=
  let endian := getNatP mo.e_ident "EI_DATA"
  match writeStructEx eh 1 mo.ehdr s with
  | .error e => .error e
  | .ok s1 =>
    match writeN ph endian mo.phdrs (getNatV mo.ehdr "e_phnum")
        ⟨s1.buf, getNatV mo.ehdr "e_phoff"⟩ with
    | .error e => .error e
    | .ok s2 =>
      match writeN sh endian mo.shdrs (getNatV mo.ehdr "e_shnum")
          ⟨s2.buf, getNatV mo.ehdr "e_shoff"⟩ with
      | .error e => .error e
      | .ok s3 => .ok s3

/-- `ELF.serialize` (lines 545-574): select the class-appropriate
schemas and run the write sequence over the model's file state. -/
def serializeELF (mo : ElfModel) (s : MState) : Except Err MState :=
  if lookupP mo.e_ident "EI_CLASS" = some (.int 1) then
    serializeBody Elf32_Ehdr Elf32_Phdr Elf32_Shdr mo s
  else if lookupP mo.e_ident "EI_CLASS" = some (.int 2) then
    serializeBody Elf64_Ehdr Elf64_Phdr Elf64_Shdr mo s
  else .error .unknownClass

/-- `ELF.read` applied to a fresh `ELF(buf)`: parse the buffer, re-emit
the unmutated model over the same file, and return the resulting bytes. -/
def elfRead (buf : List Nat) : Except Err (List Nat) :=
  match parseELF buf with
  | .error e => .error e
  | .ok (mo, s) =>
    match serializeELF mo s with
    | .error e => .error e
    | .ok s1 => .ok s1.buf

/-! ## Size and well-formedness bookkeeping -/

/-- Total byte width of a flat schema. -/
def flatSize : FlatScheme → Nat
  | [] => 0
  | (_, t, count) :: rest => primSize t count + flatSize rest

/-- Byte width of one top-level field. -/
def fieldSize : FType → Nat → Nat
  | .prim t, count => primSize t count
  | .sub fs, _ => flatSize fs

/-- Total byte width of a top-level schema. -/
def schemeSize : Scheme → Nat
  | [] => 0
  | (_, t, count) :: rest => fieldSize t count + schemeSize rest

/-- A primitive field is well formed when its type name is in the
catalog, its repeat count is positive, a numeric type repeats exactly
once, and the type is not a float (the model keeps floats as raw bit
patterns, which Python's float semantics do not honour — see the module
comment — so no round-trip theorem below covers float fields).  Every
schema in the source's registry satisfies all of this. -/
def wfPrimB (t : String) (count : Nat) : Bool :=
  match typeNames t with
  | none => false
  | some f => decide (1 ≤ count) && (f == 's' || count == 1) && !(fmtFloat f)

/-- Every field of a flat schema is well formed. -/
def wfFields (fs : FlatScheme) : Prop :=
  ∀ x ∈ fs, wfPrimB x.2.1 x.2.2 = true

instance (fs : FlatScheme) : Decidable (wfFields fs) := by
  unfold wfFields; infer_instance

/-- A flat schema is well formed: distinct field names and well-formed
fields. -/
def wfFlat (fs : FlatScheme) : Prop :=
  (fs.map fun x => x.1).Nodup ∧ wfFields fs

instance (fs : FlatScheme) : Decidable (wfFlat fs) := by
  unfold wfFlat; infer_instance

/-- Well-formedness of one top-level field type. -/
def wfFType : FType → Nat → Prop
  | .prim t, count => wfPrimB t count = true
  | .sub fs, _ => wfFlat fs

instance (t : FType) (c : Nat) : Decidable (wfFType t c) := by
  cases t <;> (unfold wfFType; infer_instance)

/-- A top-level schema is well formed. -/
def wfScheme (sch : Scheme) : Prop :=
  (sch.map fun x => x.1).Nodup ∧ ∀ x ∈ sch, wfFType x.2.1 x.2.2

instance (sch : Scheme) : Decidable (wfScheme sch) := by
  unfold wfScheme; infer_instance

/-- All elements are genuine byte values, as in a Python `bytes`. -/
def isBytes (l : List Nat) : Prop := ∀ x ∈ l, x < 256

instance (l : List Nat) : Decidable (isBytes l) := by
  unfold isBytes; infer_instance

/-! ## Concrete input buffers -/

/-- A minimal syntactically valid little-endian 32-bit header buffer:
class 1, data encoding 1, version 1, `e_phoff = 0`, `e_shoff = 1`,
`e_phnum = e_shnum = 0`, 52 bytes in total.  Parsing it succeeds and
leaves the cursor at position 1 (`e_shoff`). -/
def ex52 : List Nat :=
  [0x7f, 0x45, 0x4c, 0x46, 1, 1, 1, 0, 0, 0, 0, 0, 0, 0, 0, 0,
   0, 0,  0, 0,  1, 0, 0, 0,  0, 0, 0, 0,  0, 0, 0, 0,  1, 0, 0, 0,
   0, 0, 0, 0,  52, 0,  32, 0,  0, 0,  40, 0,  0, 0,  0, 0]

/-- The big-endian twin of `ex52`: data encoding 2, all multi-byte
fields stored big-endian. -/
def exBE : List Nat :=
  [0x7f, 0x45, 0x4c, 0x46, 1, 2, 1, 0, 0, 0, 0, 0, 0, 0, 0, 0,
   0, 0,  0, 0,  0, 0, 0, 1,  0, 0, 0, 0,  0, 0, 0, 0,  0, 0, 0, 1,
   0, 0, 0, 0,  0, 52,  0, 32,  0, 0,  0, 40,  0, 0,  0, 0]

/-- A buffer whose data-encoding byte is 0 — neither little (1) nor
big (2) — with all multi-byte fields stored big-endian (which is how
the code interprets any encoding byte other than 1). -/
def exData0 : List Nat :=
  [0x7f, 0x45, 0x4c, 0x46, 1, 0, 1, 0, 0, 0, 0, 0, 0, 0, 0, 0,
   0, 0,  0, 0,  0, 0, 0, 1,  0, 0, 0, 0,  0, 0, 0, 0,  0, 0, 0, 0,
   0, 0, 0, 0,  0, 52,  0, 32,  0, 0,  0, 40,  0, 0,  0, 0]

/-- Like `ex52` but declaring one program header at `e_phoff = 52`
while the buffer ends at byte 52: the program-header table is
truncated. -/
def exTrunc : List Nat :=
  [0x7f, 0x45, 0x4c, 0x46, 1, 1, 1, 0, 0, 0, 0, 0, 0, 0, 0, 0,
   0, 0,  0, 0,  1, 0, 0, 0,  0, 0, 0, 0,  52, 0, 0, 0,  0, 0, 0, 0,
   0, 0, 0, 0,  52, 0,  32, 0,  1, 0,  40, 0,  0, 0,  0, 0]

/-- A valid class-1 buffer with one program header (at 52) and one
section header (at 84): 52 + 32 + 40 = 124 bytes. -/
def exPh : List Nat :=
  [0x7f, 0x45, 0x4c, 0x46, 1, 1, 1, 0, 0, 0, 0, 0, 0, 0, 0, 0,
   0, 0,  0, 0,  1, 0, 0, 0,  0, 0, 0, 0,  52, 0, 0, 0,  84, 0, 0, 0,
   0, 0, 0, 0,  52, 0,  32, 0,  1, 0,  40, 0,  1, 0,  0, 0] ++
  List.replicate 32 7 ++ List.replicate 40 9

/-- The header model parsed from the big-endian buffer `exBE`. -/
def mBE : ElfModel := ((parseELF exBE).toOption.map Prod.fst).getD ⟨[], [], [], []⟩

/-- The little-endian encoding of `mBE`'s file header — the bytes
`serialize` actually writes for the header. -/
def leBE : List Nat := (encodeStructEx Elf32_Ehdr 1 mBE.ehdr).toOption.getD []

/-- The header model parsed from `exData0`. -/
def mD0 : ElfModel := ((parseELF exData0).toOption.map Prod.fst).getD ⟨[], [], [], []⟩

/-! ## Claim theorems -/

/-- C1.  The round-trip claim fails on the code: `ex52` is a
syntactically valid buffer that parses successfully with no field
mutated, yet re-emission does not reproduce it — `serialize` writes the
file header at the cursor position `_parse` left behind (offset 1, the
section-header-table offset) instead of offset 0, so the emitted buffer
is the 53-byte `127 :: ex52`, not `ex52`. -/
theorem C1_roundtrip_bug :
    (parseELF ex52).isOk = true ∧
    elfRead ex52 = Except.ok (127 :: ex52) ∧
    elfRead ex52 ≠ Except.ok ex52 := by
  refine ⟨rfl, rfl, fun h => ?_⟩
  have h2 : elfRead ex52 = Except.ok (127 :: ex52) := rfl
  rw [h2] at h
  exact (by decide : (127 :: ex52 : List Nat) ≠ ex52) (Except.ok.inj h)

/-- C2.  The captured-byte-order claim fails on the code for the file
header: `exBE` declares big-endian data encoding (captured as 2), and
re-encoding its header under that captured order reproduces the
original bytes, but `serialize` calls `writeStruct` for the header
without the `endian` argument, so the emitted buffer contains the
little-endian header encoding `leBE`, which differs from the captured
big-endian one. -/
theorem C2_header_endian_bug :
    lookupP mBE.e_ident "EI_DATA" = some (PValue.int 2) ∧
    encodeStructEx Elf32_Ehdr 1 mBE.ehdr = Except.ok leBE ∧
    encodeStructEx Elf32_Ehdr 2 mBE.ehdr = Except.ok exBE ∧
    elfRead exBE = Except.ok (127 :: leBE) ∧
    leBE ≠ exBE := ⟨rfl, rfl, rfl, rfl, by decide⟩

/-- C3 counterexample.  A 5-byte all-zero buffer has a wrong magic, yet
parse fails with `truncated`, not `magicMismatch`: the parser reads the
full 16-byte identification block before checking the magic, so it runs
out of bytes (while reading `EI_DATA` at offset 5) first. -/
theorem C3_cx :
    List.take 4 [0, 0, 0, 0, 0] ≠ ELFMAG ∧
    parseELF [0, 0, 0, 0, 0] = Except.error Err.truncated ∧
    Err.truncated ≠ Err.magicMismatch := ⟨by decide, rfl, by decide⟩

/-- C4 counterexample.  `exData0` has valid magic and version but data
encoding byte 0 — neither little (1) nor big (2) — yet parse succeeds
and produces a model: the code never validates the data-encoding byte
(it treats every value other than 1 as big-endian). -/
theorem C4_cx :
    lookupP mD0.e_ident "EI_DATA" = some (PValue.int 0) ∧
    (parseELF exData0).isOk = true := ⟨rfl, rfl⟩

/-- C6 counterexample.  For the schema `[("x", uint16, 2)]` the claimed
`readStructured`/`writeStructured` round trip fails: reading yields the
map `{x ↦ 2}` (the second decoded value is discarded), and writing that
map back raises `schemaMismatch` (`struct.pack` expects 2 values), so
no field map is reproduced at all. -/
theorem C6_cx :
    readStructEx [("x", FType.prim "uint16", 2)] 1 ⟨[2, 0, 3, 0], 0⟩ =
      Except.ok ([("x", Value.prim (PValue.int 2))], ⟨[2, 0, 3, 0], 4⟩) ∧
    encodeStructEx [("x", FType.prim "uint16", 2)] 1
      [("x", Value.prim (PValue.int 2))] = Except.error Err.schemaMismatch :=
  ⟨rfl, rfl⟩

/-- C7.  The two bytes `0x02 0x00` read as a 16-bit unsigned integer
decode to 2 under the little-endian parameter (1) and to 512 under the
big-endian parameter (2). -/
theorem C7_byte_order :
    readPrim "uint16" 1 1 ⟨[2, 0], 0⟩ = Except.ok (PValue.int 2, ⟨[2, 0], 2⟩) ∧
    readPrim "uint16" 1 2 ⟨[2, 0], 0⟩ = Except.ok (PValue.int 512, ⟨[2, 0], 2⟩) :=
  ⟨rfl, rfl⟩

/-! ## Marshaller lemmas: the primitive layer -/

theorem lookupT_mem {m : List (String × Char)} {k : String} {v : Char}
    (h : lookupT m k = some v) : (k, v) ∈ m := by
  induction m with
  | nil => exact Option.noConfusion h
  | cons x rest ih =>
    obtain ⟨n, w⟩ := x
    unfold lookupT at h
    split at h
    · obtain rfl := Option.some.inj h
      rename_i heq
      subst heq
      exact List.mem_cons_self _ _
    · exact List.mem_cons_of_mem _ (ih h)

theorem fmtSize_pos {t : String} {f : Char} (h : typeNames t = some f) :
    0 < fmtSize f := by
  have hm := lookupT_mem h
  have hall : ∀ x ∈ typeNameTable, 0 < fmtSize x.2 := by decide
  exact hall _ hm

theorem wfPrimB_count {t : String} {f : Char} {c : Nat}
    (htn : typeNames t = some f) (hwf : wfPrimB t c = true) :
    1 ≤ c ∧ (f = 's' ∨ c = 1) := by
  unfold wfPrimB at hwf
  rw [htn] at hwf
  simp only [Bool.and_eq_true, decide_eq_true_eq, Bool.or_eq_true,
    beq_iff_eq] at hwf
  exact hwf.1

theorem wfPrimB_nofloat {t : String} {f : Char} {c : Nat}
    (htn : typeNames t = some f) (hwf : wfPrimB t c = true) :
    fmtFloat f = false := by
  unfold wfPrimB at hwf
  rw [htn] at hwf
  simp only [Bool.and_eq_true, Bool.not_eq_true'] at hwf
  exact hwf.2

theorem readPrim_ok_state {t : String} {c e : Nat} {s : MState} {v : PValue}
    {s' : MState} (h : readPrim t c e s = .ok (v, s')) :
    s'.buf = s.buf ∧ s'.pos = s.pos + primSize t c := by
  unfold readPrim at h
  cases htn : typeNames t with
  | none => rw [htn] at h; exact Except.noConfusion h
  | some f =>
    rw [htn] at h
    simp only at h
    split at h
    · split at h
      · simp only [Except.ok.injEq, Prod.mk.injEq] at h
        obtain ⟨h1, h2⟩ := h
        subst h2
        simp [primSize, htn]
      · split at h
        · exact Except.noConfusion h
        · simp only [Except.ok.injEq, Prod.mk.injEq] at h
          obtain ⟨h1, h2⟩ := h
          subst h2
          simp [primSize, htn]
    · exact Except.noConfusion h

theorem readPrim_ok_le {t : String} {c e : Nat} {s : MState} {v : PValue}
    {s' : MState} (hwf : wfPrimB t c = true)
    (h : readPrim t c e s = .ok (v, s')) :
    s.pos + primSize t c ≤ s.buf.length := by
  unfold readPrim at h
  unfold wfPrimB at hwf
  cases htn : typeNames t with
  | none => rw [htn] at h; exact Except.noConfusion h
  | some f =>
    rw [htn] at h
    rw [htn] at hwf
    simp only [Bool.and_eq_true, decide_eq_true_eq] at hwf
    obtain ⟨⟨hc1, -⟩, -⟩ := hwf
    have hfpos : 0 < fmtSize f := fmtSize_pos htn
    have hsz : 0 < c * fmtSize f := Nat.mul_pos (by omega) hfpos
    simp only at h
    split at h
    · rename_i hcond
      have : s.pos + c * fmtSize f ≤ s.buf.length := by
        rcases hcond with h0 | hle
        · omega
        · exact hle
      simpa [primSize, htn] using this
    · exact Except.noConfusion h

theorem readPrim_eq_of_le {t : String} {f : Char} {c e : Nat} {b : List Nat}
    {p : Nat} (htn : typeNames t = some f) (hwf : wfPrimB t c = true)
    (hle : p + primSize t c ≤ b.length) :
    readPrim t c e ⟨b, p⟩ =
      .ok (primVal f e ((b.drop p).take (primSize t c)),
           ⟨b, p + primSize t c⟩) := by
  obtain ⟨hc, _⟩ := wfPrimB_count htn hwf
  have hps : primSize t c = c * fmtSize f := by simp [primSize, htn]
  unfold readPrim primVal
  rw [htn]
  simp only
  rw [hps] at hle ⊢
  rw [if_pos (Or.inr hle)]
  by_cases hf : f = 's'
  · rw [if_pos hf, if_pos hf]
  · rw [if_neg hf, if_neg hf, if_neg (by omega : ¬ c = 0)]

theorem readPrim_trunc {t : String} {f : Char} {c e : Nat} {b : List Nat}
    {p : Nat} (htn : typeNames t = some f) (hwf : wfPrimB t c = true)
    (hlt : b.length < p + primSize t c) :
    readPrim t c e ⟨b, p⟩ = .error .truncated := by
  obtain ⟨hc, _⟩ := wfPrimB_count htn hwf
  have hfpos : 0 < fmtSize f := fmtSize_pos htn
  have hps : primSize t c = c * fmtSize f := by simp [primSize, htn]
  rw [hps] at hlt
  unfold readPrim
  rw [htn]
  simp only
  rw [if_neg]
  push_neg
  constructor
  · have : 0 < c * fmtSize f := Nat.mul_pos (by omega) hfpos
    omega
  · simpa using hlt

/-! ## Numeric byte-level lemmas -/

theorem natFromLE_lt {l : List Nat} (hb : ∀ x ∈ l, x < 256) :
    natFromLE l < 2 ^ (8 * l.length) := by
  induction l with
  | nil => simp [natFromLE]
  | cons b rest ih =>
    have hb2 : ∀ x ∈ rest, x < 256 := fun x hx => hb x (List.mem_cons_of_mem _ hx)
    have hbb : b < 256 := hb b (List.mem_cons_self _ _)
    have h2 : natFromLE rest < 2 ^ (8 * rest.length) := ih hb2
    have hpow : 2 ^ (8 * (rest.length + 1)) = 256 * 2 ^ (8 * rest.length) := by
      rw [Nat.mul_add, Nat.pow_add]
      ring
    simp only [natFromLE, List.length_cons, hpow]
    omega

theorem natToLE_natFromLE {l : List Nat} (hb : ∀ x ∈ l, x < 256) :
    natToLE l.length (natFromLE l) = l := by
  induction l with
  | nil => rfl
  | cons b rest ih =>
    have hb2 : ∀ x ∈ rest, x < 256 := fun x hx => hb x (List.mem_cons_of_mem _ hx)
    have hbb : b < 256 := hb b (List.mem_cons_self _ _)
    have hmod : (b + 256 * natFromLE rest) % 256 = b := by
      rw [Nat.add_mul_mod_self_left, Nat.mod_eq_of_lt hbb]
    have hdiv : (b + 256 * natFromLE rest) / 256 = natFromLE rest := by
      rw [Nat.add_mul_div_left _ _ (by norm_num : 0 < 256), Nat.div_eq_of_lt hbb]
      omega
    simp only [natFromLE, List.length_cons, natToLE, hmod, hdiv, ih hb2]

theorem toSigned_range {w n : Nat} (hw : 1 ≤ w) (hn : n < 2 ^ (8 * w)) :
    -(2 ^ (8 * w - 1) : Int) ≤ toSigned w n ∧ toSigned w n < 2 ^ (8 * w - 1) := by
  have hk : 8 * w = (8 * w - 1) + 1 := by omega
  have hpowI : (2 : Int) ^ (8 * w) = 2 * 2 ^ (8 * w - 1) := by
    conv_lhs => rw [hk]
    rw [pow_succ]
    ring
  unfold toSigned
  split
  · rename_i hlt
    have h1 : (0 : Int) ≤ (n : Int) := Int.ofNat_nonneg n
    have h2 : (0 : Int) ≤ 2 ^ (8 * w - 1) := by positivity
    have h3 : (n : Int) < 2 ^ (8 * w - 1) := by exact_mod_cast hlt
    exact ⟨by omega, h3⟩
  · rename_i hge
    push_neg at hge
    have hgeI : (2 ^ (8 * w - 1) : Int) ≤ (n : Int) := by exact_mod_cast hge
    have hnI : (n : Int) < 2 ^ (8 * w) := by exact_mod_cast hn
    rw [hpowI] at hnI
    constructor
    · omega
    · omega

theorem toSigned_emod {w n : Nat} (hn : n < 2 ^ (8 * w)) :
    ((toSigned w n) % (2 ^ (8 * w) : Int)).toNat = n := by
  have hnI : (n : Int) < 2 ^ (8 * w) := by exact_mod_cast hn
  have h0 : (0 : Int) ≤ (n : Int) := Int.ofNat_nonneg n
  unfold toSigned
  split
  · rw [Int.emod_eq_of_lt h0 hnI]
    simp
  · rw [Int.emod_sub_cancel, Int.emod_eq_of_lt h0 hnI]
    simp

/-! ## Evaluation lemmas for the primitive encoder -/

theorem encodePrim_s {t : String} {c e : Nat} {bs : List Nat}
    (htn : typeNames t = some 's') :
    encodePrim t c e (.bytes bs) =
      .ok (bs.take c ++ List.replicate (c - bs.length) 0) := by
  simp [encodePrim, htn]

theorem encodePrim_signed {t : String} {f : Char} {e : Nat} {i : Int}
    (htn : typeNames t = some f) (hf : f ≠ 's') (hff : fmtFloat f = false)
    (hfs : fmtSigned f = true)
    (hr : -(2 ^ (8 * fmtSize f - 1) : Int) ≤ i ∧ i < 2 ^ (8 * fmtSize f - 1)) :
    encodePrim t 1 e (.int i) =
      .ok (if e = 1 then natToLE (fmtSize f) ((i % (2 ^ (8 * fmtSize f))).toNat)
           else (natToLE (fmtSize f) ((i % (2 ^ (8 * fmtSize f))).toNat)).reverse) := by
  simp [encodePrim, htn, hf, hff, hfs, hr.1, hr.2]

theorem encodePrim_unsigned {t : String} {f : Char} {e : Nat} {i : Int}
    (htn : typeNames t = some f) (hf : f ≠ 's') (hff : fmtFloat f = false)
    (hfs : fmtSigned f = false)
    (hr : 0 ≤ i ∧ i < (2 ^ (8 * fmtSize f) : Int)) :
    encodePrim t 1 e (.int i) =
      .ok (if e = 1 then natToLE (fmtSize f) i.toNat
           else (natToLE (fmtSize f) i.toNat).reverse) := by
  simp [encodePrim, htn, hf, hff, hfs, hr.1, hr.2]

theorem decodeNum_eval {f : Char} {e : Nat} {bs : List Nat} :
    decodeNum f e bs =
      (let n := if e = 1 then natFromLE bs else natFromLE bs.reverse
       if fmtFloat f then .flt n
       else if fmtSigned f then .int (toSigned (fmtSize f) n)
       else .int (n : Int)) := rfl

theorem encodePrim_inv {t : String} {f : Char} {c e : Nat} {b : List Nat}
    {p : Nat} {v : PValue} {s' : MState}
    (htn : typeNames t = some f) (hwf : wfPrimB t c = true) (hb : isBytes b)
    (h : readPrim t c e ⟨b, p⟩ = .ok (v, s')) :
    encodePrim t c e v = .ok ((b.drop p).take (primSize t c)) := by
  obtain ⟨hc, hcs⟩ := wfPrimB_count htn hwf
  have hle := readPrim_ok_le hwf h
  simp only at hle
  rw [readPrim_eq_of_le htn hwf hle] at h
  simp only [Except.ok.injEq, Prod.mk.injEq] at h
  obtain ⟨hv, -⟩ := h
  subst hv
  have hchlen : ((b.drop p).take (primSize t c)).length = primSize t c := by
    rw [List.length_take, List.length_drop]
    omega
  have hchbytes : ∀ x ∈ (b.drop p).take (primSize t c), x < 256 := by
    intro x hx
    exact hb x (List.drop_subset _ _ (List.take_subset _ _ hx))
  by_cases hf : f = 's'
  · subst hf
    have hps : primSize t c = c := by
      simp [primSize, htn, fmtSize]
    rw [hps] at hchlen hchbytes ⊢
    have hpv : primVal 's' e ((b.drop p).take c) =
        .bytes ((b.drop p).take c) := by
      simp [primVal]
    rw [hpv, encodePrim_s htn, hchlen, List.take_of_length_le (le_of_eq hchlen)]
    simp
  · obtain rfl : c = 1 := by tauto
    have hps : primSize t 1 = fmtSize f := by simp [primSize, htn]
    rw [hps] at hchlen hchbytes hle ⊢
    generalize hch : (b.drop p).take (fmtSize f) = chunk at hchlen hchbytes ⊢
    have hpv : primVal f e chunk = decodeNum f e chunk := by
      unfold primVal
      rw [if_neg hf, List.take_of_length_le (le_of_eq hchlen)]
    rw [hpv]
    have hw1 : 1 ≤ fmtSize f := fmtSize_pos htn
    have hLEn : natFromLE chunk < 2 ^ (8 * fmtSize f) := by
      have := natFromLE_lt hchbytes
      rwa [hchlen] at this
    have hLEb : natToLE (fmtSize f) (natFromLE chunk) = chunk := by
      conv_lhs => rw [← hchlen]
      exact natToLE_natFromLE hchbytes
    have hrevbytes : ∀ x ∈ chunk.reverse, x < 256 := fun x hx =>
      hchbytes x (List.mem_reverse.mp hx)
    have hrevlen : chunk.reverse.length = fmtSize f := by
      rw [List.length_reverse, hchlen]
    have hBEn : natFromLE chunk.reverse < 2 ^ (8 * fmtSize f) := by
      have := natFromLE_lt hrevbytes
      rwa [hrevlen] at this
    have hBEb : natToLE (fmtSize f) (natFromLE chunk.reverse) = chunk.reverse := by
      conv_lhs => rw [← hrevlen]
      exact natToLE_natFromLE hrevbytes
    have hcast : ((2 ^ (8 * fmtSize f) : Nat) : Int) = (2 ^ (8 * fmtSize f) : Int) := by
      push_cast
      ring
    rw [decodeNum_eval]
    by_cases he : e = 1
    · rw [if_pos he]
      cases hff : fmtFloat f with
      | true =>
        rw [wfPrimB_nofloat htn hwf] at hff
        exact Bool.noConfusion hff
      | false =>
        rw [if_neg (by simp)]
        cases hfs : fmtSigned f with
        | true =>
          rw [if_pos rfl]
          rw [encodePrim_signed htn hf hff hfs (toSigned_range hw1 hLEn)]
          rw [if_pos he, toSigned_emod hLEn, hLEb]
        | false =>
          rw [if_neg (by simp)]
          have hr : (0 : Int) ≤ ((natFromLE chunk : Nat) : Int) ∧
              ((natFromLE chunk : Nat) : Int) < (2 ^ (8 * fmtSize f) : Int) := by
            refine ⟨Int.ofNat_nonneg _, ?_⟩
            rw [← hcast]
            exact_mod_cast hLEn
          rw [encodePrim_unsigned htn hf hff hfs hr, if_pos he]
          rw [show ((natFromLE chunk : Nat) : Int).toNat = natFromLE chunk from rfl, hLEb]
    · rw [if_neg he]
      cases hff : fmtFloat f with
      | true =>
        rw [wfPrimB_nofloat htn hwf] at hff
        exact Bool.noConfusion hff
      | false =>
        rw [if_neg (by simp)]
        cases hfs : fmtSigned f with
        | true =>
          rw [if_pos rfl]
          rw [encodePrim_signed htn hf hff hfs (toSigned_range hw1 hBEn)]
          rw [if_neg he, toSigned_emod hBEn, hBEb, List.reverse_reverse]
        | false =>
          rw [if_neg (by simp)]
          have hr : (0 : Int) ≤ ((natFromLE chunk.reverse : Nat) : Int) ∧
              ((natFromLE chunk.reverse : Nat) : Int) < (2 ^ (8 * fmtSize f) : Int) := by
            refine ⟨Int.ofNat_nonneg _, ?_⟩
            rw [← hcast]
            exact_mod_cast hBEn
          rw [encodePrim_unsigned htn hf hff hfs hr, if_neg he]
          rw [show ((natFromLE chunk.reverse : Nat) : Int).toNat
                = natFromLE chunk.reverse from rfl, hBEb, List.reverse_reverse]

theorem slice_trans {b b2 : List Nat} {p q T a k : Nat}
    (hch : (b2.drop q).take T = (b.drop p).take T) (hak : a + k ≤ T) :
    (b2.drop (q + a)).take k = (b.drop (p + a)).take k := by
  have key : ∀ (l : List Nat) (r : Nat),
      (l.drop (r + a)).take k = (((l.drop r).take T).drop a).take k := by
    intro l r
    rw [List.drop_take, List.take_take, min_eq_left (by omega : k ≤ T - a),
        List.drop_drop]
  rw [key b2 q, key b p, hch]

theorem readPrim_local {t : String} {c e : Nat} {b b2 : List Nat} {p q : Nat}
    {v : PValue} {s' : MState} (hwf : wfPrimB t c = true)
    (h : readPrim t c e ⟨b, p⟩ = .ok (v, s'))
    (hch : (b2.drop q).take (primSize t c) = (b.drop p).take (primSize t c)) :
    readPrim t c e ⟨b2, q⟩ = .ok (v, ⟨b2, q + primSize t c⟩) := by
  cases htn : typeNames t with
  | none =>
    unfold wfPrimB at hwf
    rw [htn] at hwf
    exact Bool.noConfusion hwf
  | some f =>
    have hle := readPrim_ok_le hwf h
    simp only at hle
    have hlen2 : q + primSize t c ≤ b2.length := by
      have e2 := congrArg List.length hch
      rw [List.length_take, List.length_drop, List.length_take,
          List.length_drop] at e2
      obtain ⟨hc, -⟩ := wfPrimB_count htn hwf
      have hpos : 0 < primSize t c := by
        have h5 := fmtSize_pos htn
        simp only [primSize, htn]
        exact Nat.mul_pos (by omega) h5
      rcases le_total (primSize t c) (b2.length - q) with h4 | h4
      · omega
      · rw [min_eq_right h4,
            min_eq_left (by omega : primSize t c ≤ b.length - p)] at e2
        omega
    rw [readPrim_eq_of_le htn hwf hle] at h
    simp only [Except.ok.injEq, Prod.mk.injEq] at h
    obtain ⟨hv, -⟩ := h
    rw [readPrim_eq_of_le htn hwf hlen2, hch, hv]

theorem readStruct_ok_state {fs : FlatScheme} {e : Nat} {s s' : MState}
    {m : FlatMap} (h : readStruct fs e s = .ok (m, s')) :
    s'.buf = s.buf ∧ s'.pos = s.pos + flatSize fs := by
  induction fs generalizing s m with
  | nil =>
    unfold readStruct at h
    simp only [Except.ok.injEq, Prod.mk.injEq] at h
    obtain ⟨-, rfl⟩ := h
    simp [flatSize]
  | cons x rest ih =>
    obtain ⟨name, t, c⟩ := x
    unfold readStruct at h
    cases hr : readPrim t c e s with
    | error err => rw [hr] at h; exact Except.noConfusion h
    | ok vs =>
      rw [hr] at h
      obtain ⟨v, s1⟩ := vs
      simp only at h
      cases hrest : readStruct rest e s1 with
      | error err => rw [hrest] at h; exact Except.noConfusion h
      | ok ms2 =>
        rw [hrest] at h
        obtain ⟨m2, s2⟩ := ms2
        simp only [Except.ok.injEq, Prod.mk.injEq] at h
        obtain ⟨-, rfl⟩ := h
        obtain ⟨hb1, hp1⟩ := readPrim_ok_state hr
        obtain ⟨hb2, hp2⟩ := ih hrest
        constructor
        · rw [hb2, hb1]
        · rw [hp2, hp1]
          simp only [flatSize]
          omega

theorem readStruct_keys {fs : FlatScheme} {e : Nat} {s s' : MState}
    {m : FlatMap} (h : readStruct fs e s = .ok (m, s')) :
    m.map (fun x => x.1) = fs.map (fun x => x.1) := by
  induction fs generalizing s m with
  | nil =>
    unfold readStruct at h
    simp only [Except.ok.injEq, Prod.mk.injEq] at h
    obtain ⟨rfl, -⟩ := h
    rfl
  | cons x rest ih =>
    obtain ⟨name, t, c⟩ := x
    unfold readStruct at h
    cases hr : readPrim t c e s with
    | error err => rw [hr] at h; exact Except.noConfusion h
    | ok vs =>
      rw [hr] at h
      obtain ⟨v, s1⟩ := vs
      simp only at h
      cases hrest : readStruct rest e s1 with
      | error err => rw [hrest] at h; exact Except.noConfusion h
      | ok ms2 =>
        rw [hrest] at h
        obtain ⟨m2, s2⟩ := ms2
        simp only [Except.ok.injEq, Prod.mk.injEq] at h
        obtain ⟨rfl, rfl⟩ := h
        simp only [List.map_cons]
        rw [ih hrest]

theorem readStruct_ok_of_le {fs : FlatScheme} {e : Nat} {b : List Nat} {p : Nat}
    (hwf : wfFields fs) (hle : p + flatSize fs ≤ b.length) :
    ∃ m, readStruct fs e ⟨b, p⟩ = .ok (m, ⟨b, p + flatSize fs⟩) := by
  induction fs generalizing p with
  | nil => exact ⟨[], by simp [readStruct, flatSize]⟩
  | cons x rest ih =>
    obtain ⟨name, t, c⟩ := x
    have hwf1 : wfPrimB t c = true := hwf _ (List.mem_cons_self _ _)
    have hwfr : wfFields rest := fun y hy => hwf y (List.mem_cons_of_mem _ hy)
    cases htn : typeNames t with
    | none =>
      unfold wfPrimB at hwf1
      rw [htn] at hwf1
      exact Bool.noConfusion hwf1
    | some f =>
      have hle1 : p + primSize t c ≤ b.length := by
        simp only [flatSize] at hle
        omega
      obtain ⟨m2, hm2⟩ := ih hwfr (p := p + primSize t c)
        (by simp only [flatSize] at hle; omega)
      refine ⟨(name, primVal f e ((b.drop p).take (primSize t c))) :: m2, ?_⟩
      unfold readStruct
      rw [readPrim_eq_of_le htn hwf1 hle1]
      simp only
      rw [hm2]
      simp only [flatSize]
      rw [← Nat.add_assoc]

theorem readStruct_trunc {fs : FlatScheme} {e : Nat} {b : List Nat} {p : Nat}
    (hwf : wfFields fs) (hne : fs ≠ [])
    (hlt : b.length < p + flatSize fs) :
    readStruct fs e ⟨b, p⟩ = .error .truncated := by
  induction fs generalizing p with
  | nil => exact absurd rfl hne
  | cons x rest ih =>
    obtain ⟨name, t, c⟩ := x
    have hwf1 : wfPrimB t c = true := hwf _ (List.mem_cons_self _ _)
    have hwfr : wfFields rest := fun y hy => hwf y (List.mem_cons_of_mem _ hy)
    cases htn : typeNames t with
    | none =>
      unfold wfPrimB at hwf1
      rw [htn] at hwf1
      exact Bool.noConfusion hwf1
    | some f =>
      by_cases hfit : p + primSize t c ≤ b.length
      · cases rest with
        | nil =>
          exact absurd hfit (by simp only [flatSize] at hlt ⊢; omega)
        | cons y rest2 =>
          unfold readStruct
          rw [readPrim_eq_of_le htn hwf1 hfit]
          simp only
          rw [ih hwfr (by simp) (by simp only [flatSize] at hlt ⊢; omega)]
      · unfold readStruct
        rw [readPrim_trunc htn hwf1 (by omega)]

theorem lookupP_cons_ne {nm name : String} {v : PValue} {m : FlatMap}
    (h : nm ≠ name) : lookupP ((nm, v) :: m) name = lookupP m name := by
  have hstep : lookupP ((nm, v) :: m) name
      = if nm = name then some v else lookupP m name := rfl
  rw [hstep, if_neg h]

theorem lookupP_cons_self {name : String} {v : PValue} {m : FlatMap} :
    lookupP ((name, v) :: m) name = some v := by
  have hstep : lookupP ((name, v) :: m) name
      = if name = name then some v else lookupP m name := rfl
  rw [hstep, if_pos rfl]

theorem readStruct_local {fs : FlatScheme} {e : Nat} {b b2 : List Nat}
    {p q : Nat} {m : FlatMap} {s' : MState} (hwf : wfFields fs)
    (h : readStruct fs e ⟨b, p⟩ = .ok (m, s'))
    (hch : (b2.drop q).take (flatSize fs) = (b.drop p).take (flatSize fs)) :
    readStruct fs e ⟨b2, q⟩ = .ok (m, ⟨b2, q + flatSize fs⟩) := by
  induction fs generalizing p q m with
  | nil =>
    unfold readStruct at h ⊢
    simp only [Except.ok.injEq, Prod.mk.injEq] at h
    obtain ⟨rfl, -⟩ := h
    simp [flatSize]
  | cons x rest ih =>
    obtain ⟨name, t, c⟩ := x
    have hwf1 : wfPrimB t c = true := hwf _ (List.mem_cons_self _ _)
    have hwfr : wfFields rest := fun y hy => hwf y (List.mem_cons_of_mem _ hy)
    unfold readStruct at h
    cases hr : readPrim t c e ⟨b, p⟩ with
    | error err => rw [hr] at h; exact Except.noConfusion h
    | ok vs =>
      rw [hr] at h
      obtain ⟨v, s1⟩ := vs
      have hs1 : s1 = ⟨b, p + primSize t c⟩ := by
        obtain ⟨hb1, hp1⟩ := readPrim_ok_state hr
        cases s1
        simp only at hb1 hp1
        simp [hb1, hp1]
      subst hs1
      simp only at h
      cases hrest : readStruct rest e ⟨b, p + primSize t c⟩ with
      | error err => rw [hrest] at h; exact Except.noConfusion h
      | ok ms2 =>
        rw [hrest] at h
        obtain ⟨m2, s2⟩ := ms2
        simp only [Except.ok.injEq, Prod.mk.injEq] at h
        obtain ⟨rfl, rfl⟩ := h
        have hch1 : (b2.drop q).take (primSize t c)
            = (b.drop p).take (primSize t c) := by
          have := slice_trans (a := 0) (k := primSize t c) hch
            (by simp only [flatSize]; omega)
          simpa using this
        have hhead := readPrim_local hwf1 hr hch1
        have hch2 : ((b2.drop (q + primSize t c)).take (flatSize rest))
            = (b.drop (p + primSize t c)).take (flatSize rest) :=
          slice_trans hch (by simp only [flatSize]; omega)
        have htail := ih hwfr hrest hch2
        unfold readStruct
        rw [hhead]
        simp only
        rw [htail]
        simp only [flatSize]
        rw [← Nat.add_assoc]

theorem encodeStruct_irrel {fs : FlatScheme} {e : Nat} {nm : String}
    {v : PValue} {m : FlatMap} (hnm : ∀ x ∈ fs, x.1 ≠ nm) :
    encodeStruct fs e ((nm, v) :: m) = encodeStruct fs e m := by
  induction fs with
  | nil => rfl
  | cons x rest ih =>
    obtain ⟨name, t, c⟩ := x
    have h1 : name ≠ nm := hnm _ (List.mem_cons_self _ _)
    unfold encodeStruct
    rw [lookupP_cons_ne (fun hh => h1 hh.symm)]
    rw [ih (fun y hy => hnm y (List.mem_cons_of_mem _ hy))]

theorem encodeStruct_inv {fs : FlatScheme} {e : Nat} {b : List Nat} {p : Nat}
    {m : FlatMap} {s' : MState} (hnd : (fs.map fun x => x.1).Nodup)
    (hwff : wfFields fs) (hb : isBytes b)
    (h : readStruct fs e ⟨b, p⟩ = .ok (m, s')) :
    encodeStruct fs e m = .ok ((b.drop p).take (flatSize fs)) := by
  induction fs generalizing p m with
  | nil =>
    unfold readStruct at h
    simp only [Except.ok.injEq, Prod.mk.injEq] at h
    obtain ⟨rfl, -⟩ := h
    simp [encodeStruct, flatSize]
  | cons x rest ih =>
    obtain ⟨name, t, c⟩ := x
    have hwf1 : wfPrimB t c = true := hwff _ (List.mem_cons_self _ _)
    have hwfr : wfFields rest := fun y hy => hwff y (List.mem_cons_of_mem _ hy)
    simp only [List.map_cons, List.nodup_cons] at hnd
    obtain ⟨hnotin, hndrest⟩ := hnd
    cases htn : typeNames t with
    | none =>
      unfold wfPrimB at hwf1
      rw [htn] at hwf1
      exact Bool.noConfusion hwf1
    | some f =>
      unfold readStruct at h
      cases hr : readPrim t c e ⟨b, p⟩ with
      | error err => rw [hr] at h; exact Except.noConfusion h
      | ok vs =>
        rw [hr] at h
        obtain ⟨v, s1⟩ := vs
        have hs1 : s1 = ⟨b, p + primSize t c⟩ := by
          obtain ⟨hb1, hp1⟩ := readPrim_ok_state hr
          cases s1
          simp only at hb1 hp1
          simp [hb1, hp1]
        subst hs1
        simp only at h
        cases hrest : readStruct rest e ⟨b, p + primSize t c⟩ with
        | error err => rw [hrest] at h; exact Except.noConfusion h
        | ok ms2 =>
          rw [hrest] at h
          obtain ⟨m2, s2⟩ := ms2
          simp only [Except.ok.injEq, Prod.mk.injEq] at h
          obtain ⟨rfl, rfl⟩ := h
          unfold encodeStruct
          rw [lookupP_cons_self]
          simp only
          rw [encodePrim_inv htn hwf1 hb hr]
          simp only
          have hnames : ∀ x ∈ rest, x.1 ≠ name := by
            intro y hy
            intro hcon
            exact hnotin (hcon ▸ List.mem_map_of_mem (fun z => z.1) hy)
          rw [encodeStruct_irrel hnames]
          rw [ih hndrest hwfr hrest]
          simp only [flatSize]
          rw [List.take_add, List.drop_drop]

theorem readField_ok_state {t : FType} {c e : Nat} {s s' : MState}
    {v : Value} (h : readField t c e s = .ok (v, s')) :
    s'.buf = s.buf ∧ s'.pos = s.pos + fieldSize t c := by
  cases t with
  | prim name =>
    unfold readField at h
    simp only at h
    cases hr : readPrim name c e s with
    | error err => rw [hr] at h; exact Except.noConfusion h
    | ok vs =>
      rw [hr] at h
      obtain ⟨pv, s1⟩ := vs
      simp only [Except.ok.injEq, Prod.mk.injEq] at h
      obtain ⟨-, rfl⟩ := h
      exact readPrim_ok_state hr
  | sub fs =>
    unfold readField at h
    simp only at h
    cases hr : readStruct fs e s with
    | error err => rw [hr] at h; exact Except.noConfusion h
    | ok ms =>
      rw [hr] at h
      obtain ⟨m, s1⟩ := ms
      simp only [Except.ok.injEq, Prod.mk.injEq] at h
      obtain ⟨-, rfl⟩ := h
      exact readStruct_ok_state hr

theorem readStructEx_ok_state {sch : Scheme} {e : Nat} {s s' : MState}
    {m : FieldMap} (h : readStructEx sch e s = .ok (m, s')) :
    s'.buf = s.buf ∧ s'.pos = s.pos + schemeSize sch := by
  induction sch generalizing s s' m with
  | nil =>
    unfold readStructEx at h
    simp only [Except.ok.injEq, Prod.mk.injEq] at h
    obtain ⟨-, rfl⟩ := h
    simp [schemeSize]
  | cons x rest ih =>
    obtain ⟨name, t, c⟩ := x
    unfold readStructEx at h
    cases hr : readField t c e s with
    | error err => rw [hr] at h; exact Except.noConfusion h
    | ok vs =>
      rw [hr] at h
      obtain ⟨v, s1⟩ := vs
      simp only at h
      cases hrest : readStructEx rest e s1 with
      | error err => rw [hrest] at h; exact Except.noConfusion h
      | ok ms2 =>
        rw [hrest] at h
        obtain ⟨m2, s2⟩ := ms2
        simp only [Except.ok.injEq, Prod.mk.injEq] at h
        obtain ⟨-, rfl⟩ := h
        obtain ⟨hb1, hp1⟩ := readField_ok_state hr
        obtain ⟨hb2, hp2⟩ := ih hrest
        refine ⟨by rw [hb2, hb1], ?_⟩
        rw [hp2, hp1]
        simp only [schemeSize]
        omega

theorem readStruct_chunk_full {fs : FlatScheme} {e : Nat} {b : List Nat}
    {p : Nat} {m : FlatMap} {s' : MState} (hwf : wfFields fs)
    (h : readStruct fs e ⟨b, p⟩ = .ok (m, s')) :
    flatSize fs ≤ b.length - p := by
  induction fs generalizing p m s' with
  | nil => simp [flatSize]
  | cons x rest ih =>
    obtain ⟨name, t, c⟩ := x
    have hwf1 : wfPrimB t c = true := hwf _ (List.mem_cons_self _ _)
    have hwfr : wfFields rest := fun y hy => hwf y (List.mem_cons_of_mem _ hy)
    unfold readStruct at h
    cases hr : readPrim t c e ⟨b, p⟩ with
    | error err => rw [hr] at h; exact Except.noConfusion h
    | ok vs =>
      rw [hr] at h
      obtain ⟨v, s1⟩ := vs
      have hs1 : s1 = ⟨b, p + primSize t c⟩ := by
        obtain ⟨hb1, hp1⟩ := readPrim_ok_state hr
        cases s1
        simp only at hb1 hp1
        simp [hb1, hp1]
      subst hs1
      simp only at h
      cases hrest : readStruct rest e ⟨b, p + primSize t c⟩ with
      | error err => rw [hrest] at h; exact Except.noConfusion h
      | ok ms2 =>
        obtain ⟨m2, s2⟩ := ms2
        have hle1 := readPrim_ok_le hwf1 hr
        simp only at hle1
        have h2 := ih hwfr hrest
        simp only [flatSize]
        omega

theorem readField_chunk_full {t : FType} {c e : Nat} {b : List Nat}
    {p : Nat} {v : Value} {s' : MState} (hwf : wfFType t c)
    (h : readField t c e ⟨b, p⟩ = .ok (v, s')) :
    fieldSize t c ≤ b.length - p := by
  cases t with
  | prim name =>
    unfold readField at h
    simp only at h
    cases hr : readPrim name c e ⟨b, p⟩ with
    | error err => rw [hr] at h; exact Except.noConfusion h
    | ok vs =>
      have hwfp : wfPrimB name c = true := hwf
      have hle := readPrim_ok_le hwfp hr
      simp only at hle
      simp only [fieldSize]
      omega
  | sub fs =>
    unfold readField at h
    simp only at h
    cases hr : readStruct fs e ⟨b, p⟩ with
    | error err => rw [hr] at h; exact Except.noConfusion h
    | ok ms =>
      exact readStruct_chunk_full hwf.2 hr

theorem readStructEx_chunk_full {sch : Scheme} {e : Nat} {b : List Nat}
    {p : Nat} {m : FieldMap} {s' : MState}
    (hwf : ∀ x ∈ sch, wfFType x.2.1 x.2.2)
    (h : readStructEx sch e ⟨b, p⟩ = .ok (m, s')) :
    schemeSize sch ≤ b.length - p := by
  induction sch generalizing p m s' with
  | nil => simp [schemeSize]
  | cons x rest ih =>
    obtain ⟨name, t, c⟩ := x
    have hwf1 : wfFType t c := hwf _ (List.mem_cons_self _ _)
    have hwfr : ∀ x ∈ rest, wfFType x.2.1 x.2.2 := fun y hy =>
      hwf y (List.mem_cons_of_mem _ hy)
    unfold readStructEx at h
    cases hr : readField t c e ⟨b, p⟩ with
    | error err => rw [hr] at h; exact Except.noConfusion h
    | ok vs =>
      rw [hr] at h
      obtain ⟨v, s1⟩ := vs
      have hs1 : s1 = ⟨b, p + fieldSize t c⟩ := by
        obtain ⟨hb1, hp1⟩ := readField_ok_state hr
        cases s1
        simp only at hb1 hp1
        simp [hb1, hp1]
      subst hs1
      simp only at h
      cases hrest : readStructEx rest e ⟨b, p + fieldSize t c⟩ with
      | error err => rw [hrest] at h; exact Except.noConfusion h
      | ok ms2 =>
        obtain ⟨m2, s2⟩ := ms2
        have h1 := readField_chunk_full hwf1 hr
        have h2 := ih hwfr hrest
        simp only [schemeSize]
        omega

theorem readField_local {t : FType} {c e : Nat} {b b2 : List Nat} {p q : Nat}
    {v : Value} {s' : MState} (hwf : wfFType t c)
    (h : readField t c e ⟨b, p⟩ = .ok (v, s'))
    (hch : (b2.drop q).take (fieldSize t c) = (b.drop p).take (fieldSize t c)) :
    readField t c e ⟨b2, q⟩ = .ok (v, ⟨b2, q + fieldSize t c⟩) := by
  cases t with
  | prim name =>
    have hwfp : wfPrimB name c = true := hwf
    unfold readField at h ⊢
    simp only at h ⊢
    cases hr : readPrim name c e ⟨b, p⟩ with
    | error err => rw [hr] at h; exact Except.noConfusion h
    | ok vs =>
      rw [hr] at h
      obtain ⟨pv, s1⟩ := vs
      simp only [Except.ok.injEq, Prod.mk.injEq] at h
      obtain ⟨rfl, rfl⟩ := h
      rw [readPrim_local hwfp hr (by simpa [fieldSize] using hch)]
      simp [fieldSize]
  | sub fs =>
    unfold readField at h ⊢
    simp only at h ⊢
    cases hr : readStruct fs e ⟨b, p⟩ with
    | error err => rw [hr] at h; exact Except.noConfusion h
    | ok ms =>
      rw [hr] at h
      obtain ⟨m, s1⟩ := ms
      simp only [Except.ok.injEq, Prod.mk.injEq] at h
      obtain ⟨rfl, rfl⟩ := h
      rw [readStruct_local hwf.2 hr (by simpa [fieldSize] using hch)]
      simp [fieldSize]

theorem readStructEx_local {sch : Scheme} {e : Nat} {b b2 : List Nat}
    {p q : Nat} {m : FieldMap} {s' : MState}
    (hwf : ∀ x ∈ sch, wfFType x.2.1 x.2.2)
    (h : readStructEx sch e ⟨b, p⟩ = .ok (m, s'))
    (hch : (b2.drop q).take (schemeSize sch)
      = (b.drop p).take (schemeSize sch)) :
    readStructEx sch e ⟨b2, q⟩ = .ok (m, ⟨b2, q + schemeSize sch⟩) := by
  induction sch generalizing p q m s' with
  | nil =>
    unfold readStructEx at h ⊢
    simp only [Except.ok.injEq, Prod.mk.injEq] at h
    obtain ⟨rfl, -⟩ := h
    simp [schemeSize]
  | cons x rest ih =>
    obtain ⟨name, t, c⟩ := x
    have hwf1 : wfFType t c := hwf _ (List.mem_cons_self _ _)
    have hwfr : ∀ x ∈ rest, wfFType x.2.1 x.2.2 := fun y hy =>
      hwf y (List.mem_cons_of_mem _ hy)
    unfold readStructEx at h
    cases hr : readField t c e ⟨b, p⟩ with
    | error err => rw [hr] at h; exact Except.noConfusion h
    | ok vs =>
      rw [hr] at h
      obtain ⟨v, s1⟩ := vs
      have hs1 : s1 = ⟨b, p + fieldSize t c⟩ := by
        obtain ⟨hb1, hp1⟩ := readField_ok_state hr
        cases s1
        simp only at hb1 hp1
        simp [hb1, hp1]
      subst hs1
      simp only at h
      cases hrest : readStructEx rest e ⟨b, p + fieldSize t c⟩ with
      | error err => rw [hrest] at h; exact Except.noConfusion h
      | ok ms2 =>
        rw [hrest] at h
        obtain ⟨m2, s2⟩ := ms2
        simp only [Except.ok.injEq, Prod.mk.injEq] at h
        obtain ⟨rfl, rfl⟩ := h
        have hch1 : (b2.drop q).take (fieldSize t c)
            = (b.drop p).take (fieldSize t c) := by
          have := slice_trans (a := 0) (k := fieldSize t c) hch
            (by simp only [schemeSize]; omega)
          simpa using this
        have hhead := readField_local hwf1 hr hch1
        have hch2 : ((b2.drop (q + fieldSize t c)).take (schemeSize rest))
            = (b.drop (p + fieldSize t c)).take (schemeSize rest) :=
          slice_trans hch (by simp only [schemeSize]; omega)
        have htail := ih hwfr hrest hch2
        unfold readStructEx
        rw [hhead]
        simp only
        rw [htail]
        simp only [schemeSize]
        rw [← Nat.add_assoc]

theorem lookupV_cons_ne {nm name : String} {v : Value} {m : FieldMap}
    (h : nm ≠ name) : lookupV ((nm, v) :: m) name = lookupV m name := by
  have hstep : lookupV ((nm, v) :: m) name
      = if nm = name then some v else lookupV m name := rfl
  rw [hstep, if_neg h]

theorem lookupV_cons_self {name : String} {v : Value} {m : FieldMap} :
    lookupV ((name, v) :: m) name = some v := by
  have hstep : lookupV ((name, v) :: m) name
      = if name = name then some v else lookupV m name := rfl
  rw [hstep, if_pos rfl]

theorem encodeStructEx_irrel {sch : Scheme} {e : Nat} {nm : String}
    {v : Value} {m : FieldMap} (hnm : ∀ x ∈ sch, x.1 ≠ nm) :
    encodeStructEx sch e ((nm, v) :: m) = encodeStructEx sch e m := by
  induction sch with
  | nil => rfl
  | cons x rest ih =>
    obtain ⟨name, t, c⟩ := x
    have h1 : name ≠ nm := hnm _ (List.mem_cons_self _ _)
    unfold encodeStructEx
    rw [lookupV_cons_ne (fun hh => h1 hh.symm)]
    rw [ih (fun y hy => hnm y (List.mem_cons_of_mem _ hy))]

theorem encodeField_inv {t : FType} {c e : Nat} {b : List Nat} {p : Nat}
    {v : Value} {s' : MState} (hwf : wfFType t c) (hb : isBytes b)
    (h : readField t c e ⟨b, p⟩ = .ok (v, s')) :
    encodeField t c e v = .ok ((b.drop p).take (fieldSize t c)) := by
  cases t with
  | prim name =>
    have hwfp : wfPrimB name c = true := hwf
    unfold readField at h
    simp only at h
    cases hr : readPrim name c e ⟨b, p⟩ with
    | error err => rw [hr] at h; exact Except.noConfusion h
    | ok vs =>
      rw [hr] at h
      obtain ⟨pv, s1⟩ := vs
      simp only [Except.ok.injEq, Prod.mk.injEq] at h
      obtain ⟨rfl, -⟩ := h
      cases htn : typeNames name with
      | none =>
        unfold wfPrimB at hwfp
        rw [htn] at hwfp
        exact Bool.noConfusion hwfp
      | some f =>
        unfold encodeField
        simp only
        rw [encodePrim_inv htn hwfp hb hr]
        simp [fieldSize]
  | sub fs =>
    unfold readField at h
    simp only at h
    cases hr : readStruct fs e ⟨b, p⟩ with
    | error err => rw [hr] at h; exact Except.noConfusion h
    | ok ms =>
      rw [hr] at h
      obtain ⟨m, s1⟩ := ms
      simp only [Except.ok.injEq, Prod.mk.injEq] at h
      obtain ⟨rfl, -⟩ := h
      unfold encodeField
      simp only
      rw [encodeStruct_inv hwf.1 hwf.2 hb hr]
      simp [fieldSize]

theorem encodeStructEx_inv {sch : Scheme} {e : Nat} {b : List Nat} {p : Nat}
    {m : FieldMap} {s' : MState} (hnd : (sch.map fun x => x.1).Nodup)
    (hwff : ∀ x ∈ sch, wfFType x.2.1 x.2.2) (hb : isBytes b)
    (h : readStructEx sch e ⟨b, p⟩ = .ok (m, s')) :
    encodeStructEx sch e m = .ok ((b.drop p).take (schemeSize sch)) := by
  induction sch generalizing p m s' with
  | nil =>
    unfold readStructEx at h
    simp only [Except.ok.injEq, Prod.mk.injEq] at h
    obtain ⟨rfl, -⟩ := h
    simp [encodeStructEx, schemeSize]
  | cons x rest ih =>
    obtain ⟨name, t, c⟩ := x
    have hwf1 : wfFType t c := hwff _ (List.mem_cons_self _ _)
    have hwfr : ∀ x ∈ rest, wfFType x.2.1 x.2.2 := fun y hy =>
      hwff y (List.mem_cons_of_mem _ hy)
    simp only [List.map_cons, List.nodup_cons] at hnd
    obtain ⟨hnotin, hndrest⟩ := hnd
    unfold readStructEx at h
    cases hr : readField t c e ⟨b, p⟩ with
    | error err => rw [hr] at h; exact Except.noConfusion h
    | ok vs =>
      rw [hr] at h
      obtain ⟨v, s1⟩ := vs
      have hs1 : s1 = ⟨b, p + fieldSize t c⟩ := by
        obtain ⟨hb1, hp1⟩ := readField_ok_state hr
        cases s1
        simp only at hb1 hp1
        simp [hb1, hp1]
      subst hs1
      simp only at h
      cases hrest : readStructEx rest e ⟨b, p + fieldSize t c⟩ with
      | error err => rw [hrest] at h; exact Except.noConfusion h
      | ok ms2 =>
        rw [hrest] at h
        obtain ⟨m2, s2⟩ := ms2
        simp only [Except.ok.injEq, Prod.mk.injEq] at h
        obtain ⟨rfl, rfl⟩ := h
        unfold encodeStructEx
        rw [lookupV_cons_self]
        simp only
        rw [encodeField_inv hwf1 hb hr]
        simp only
        have hnames : ∀ x ∈ rest, x.1 ≠ name := by
          intro y hy hcon
          exact hnotin (hcon ▸ List.mem_map_of_mem (fun z => z.1) hy)
        rw [encodeStructEx_irrel hnames]
        rw [ih hndrest hwfr hrest]
        simp only [schemeSize]
        rw [List.take_add, List.drop_drop]

theorem writeAt_window (buf : List Nat) (p : Nat) (bs : List Nat) :
    ((writeAt buf p bs).drop p).take bs.length = bs := by
  unfold writeAt
  simp only
  have hlen : ((buf ++ List.replicate (p - buf.length) 0).take p).length = p := by
    rw [List.length_take, List.length_append, List.length_replicate]
    omega
  generalize hX : List.take p (buf ++ List.replicate (p - buf.length) 0) = X at hlen
  generalize hY : List.drop (p + bs.length)
    (buf ++ List.replicate (p - buf.length) 0) = Y
  rw [List.append_assoc]
  conv_lhs => rw [← hlen]
  rw [List.drop_left, List.take_left]

def mEx52 : FieldMap :=
  ((readStructEx Elf32_Ehdr 1 ⟨ex52, 0⟩).toOption.map Prod.fst).getD []

/-- C6 amended.  For every well-formed schema — catalog types, positive
repeat counts, numeric repeats of exactly 1, no float or double fields,
and distinct field names; every schema in the registry satisfies all of
this — a field map produced by `readStruct`/`readStructEx` writes back
as exactly the bytes it was read from, and re-reading at the same
offset after `writeStructEx` reproduces the identical field map.  The
unrestricted claim fails for numeric repeat counts greater than 1 (see
`C6_cx`), and float fields lie outside the round trip as well, because
`struct.pack` does not reproduce the read bytes for every float (a
signaling-NaN pattern is quieted on repack) and a NaN-valued map never
compares equal to its re-read copy. -/
theorem C6_roundtrip_wf {sch : Scheme} {e : Nat} {b : List Nat} {p : Nat}
    {m : FieldMap} {s' : MState} (buf2 : List Nat)
    (hwf : wfScheme sch) (hb : isBytes b)
    (h : readStructEx sch e ⟨b, p⟩ = .ok (m, s')) :
    encodeStructEx sch e m = .ok ((b.drop p).take (schemeSize sch)) ∧
    writeStructEx sch e m ⟨buf2, p⟩ =
      .ok ⟨writeAt buf2 p ((b.drop p).take (schemeSize sch)),
           p + schemeSize sch⟩ ∧
    readStructEx sch e
        ⟨writeAt buf2 p ((b.drop p).take (schemeSize sch)), p⟩ =
      .ok (m, ⟨writeAt buf2 p ((b.drop p).take (schemeSize sch)),
               p + schemeSize sch⟩) := by
  obtain ⟨hnd, hwff⟩ := hwf
  have henc := encodeStructEx_inv hnd hwff hb h
  have hchlen : ((b.drop p).take (schemeSize sch)).length = schemeSize sch := by
    have := readStructEx_chunk_full hwff h
    rw [List.length_take, List.length_drop]
    omega
  refine ⟨henc, ?_, ?_⟩
  · unfold writeStructEx
    rw [henc]
    simp only
    rw [hchlen]
  · have hwin := writeAt_window buf2 p ((b.drop p).take (schemeSize sch))
    rw [hchlen] at hwin
    exact readStructEx_local hwff h hwin

theorem C6_roundtrip_wf_witness :
    wfScheme Elf32_Ehdr ∧ isBytes ex52 ∧
    (encodeStructEx Elf32_Ehdr 1 mEx52 =
        .ok ((ex52.drop 0).take (schemeSize Elf32_Ehdr)) ∧
     writeStructEx Elf32_Ehdr 1 mEx52 ⟨[], 0⟩ =
        .ok ⟨writeAt [] 0 ((ex52.drop 0).take (schemeSize Elf32_Ehdr)),
             0 + schemeSize Elf32_Ehdr⟩ ∧
     readStructEx Elf32_Ehdr 1
         ⟨writeAt [] 0 ((ex52.drop 0).take (schemeSize Elf32_Ehdr)), 0⟩ =
       .ok (mEx52, ⟨writeAt [] 0 ((ex52.drop 0).take (schemeSize Elf32_Ehdr)),
                    0 + schemeSize Elf32_Ehdr⟩)) :=
  ⟨by decide, by decide,
   C6_roundtrip_wf [] (by decide) (by decide)
     (by rfl : readStructEx Elf32_Ehdr 1 ⟨ex52, 0⟩ = .ok (mEx52, ⟨ex52, 52⟩))⟩

/-- C10.  For every numeric (non-byte-block) catalog type and repeat
count greater than 1, a successful `read` consumes exactly
`count * width` bytes yet returns only the first decoded value: the
returned value equals what a single-count read at the same position
returns. -/
theorem C10_repeat_returns_first {t : String} {f : Char} {n e : Nat}
    {b : List Nat} {p : Nat} {v : PValue} {s' : MState}
    (htn : typeNames t = some f) (hs : f ≠ 's') (hn : 1 < n)
    (h : readPrim t n e ⟨b, p⟩ = .ok (v, s')) :
    s'.buf = b ∧ s'.pos = p + n * fmtSize f ∧
    readPrim t 1 e ⟨b, p⟩ = .ok (v, ⟨b, p + fmtSize f⟩) := by
  unfold readPrim at h
  rw [htn] at h
  simp only at h
  rw [if_neg hs] at h
  split at h
  · rename_i hcond
    rw [if_neg (by omega : ¬ n = 0)] at h
    simp only [Except.ok.injEq, Prod.mk.injEq] at h
    obtain ⟨hv, hs'⟩ := h
    subst hs'
    refine ⟨rfl, rfl, ?_⟩
    unfold readPrim
    rw [htn]
    simp only
    rcases hcond with h0 | hle
    · have hw0 : fmtSize f = 0 := by
        rcases Nat.mul_eq_zero.mp h0 with h' | h'
        · omega
        · exact h'
      rw [if_pos (Or.inl (by omega : 1 * fmtSize f = 0))]
      rw [if_neg hs, if_neg (by omega : ¬ (1 : Nat) = 0)]
      rw [← hv]
      simp [hw0, h0]
    · have hwle : fmtSize f ≤ n * fmtSize f :=
        Nat.le_mul_of_pos_left _ (by omega)
      rw [if_pos (Or.inr (by omega : p + 1 * fmtSize f ≤ b.length))]
      rw [if_neg hs, if_neg (by omega : ¬ (1 : Nat) = 0)]
      rw [← hv]
      have hv2 : ((b.drop p).take (1 * fmtSize f)).take (fmtSize f)
          = ((b.drop p).take (n * fmtSize f)).take (fmtSize f) := by
        rw [List.take_take, List.take_take,
            min_eq_left (by omega : fmtSize f ≤ 1 * fmtSize f),
            min_eq_left hwle]
      rw [hv2, Nat.one_mul]
  · exact Except.noConfusion h

theorem C10_repeat_returns_first_witness :
    typeNames "uint16" = some 'H' ∧ ('H' : Char) ≠ 's' ∧ 1 < 2 ∧
    readPrim "uint16" 2 1 ⟨[2, 0, 3, 0], 0⟩ =
      .ok (PValue.int 2, ⟨[2, 0, 3, 0], 4⟩) ∧
    (MState.mk [2, 0, 3, 0] 4).buf = [2, 0, 3, 0] ∧
    (MState.mk [2, 0, 3, 0] 4).pos = 0 + 2 * fmtSize 'H' ∧
    readPrim "uint16" 1 1 ⟨[2, 0, 3, 0], 0⟩ =
      .ok (PValue.int 2, ⟨[2, 0, 3, 0], 0 + fmtSize 'H'⟩) := by
  refine ⟨by decide, by decide, by decide, by rfl, ?_⟩
  exact C10_repeat_returns_first (by decide) (by decide) (by decide)
    (by rfl : readPrim "uint16" 2 1 ⟨[2, 0, 3, 0], 0⟩ =
      .ok (PValue.int 2, ⟨[2, 0, 3, 0], 4⟩))

theorem reverse_short {l : List Nat} (h : l.length ≤ 1) : l.reverse = l := by
  match l with
  | [] => rfl
  | [a] => rfl
  | a :: b :: rest => simp at h

theorem decodeNum_endian_short {f : Char} {e1 e2 : Nat} {bs : List Nat}
    (h : bs.length ≤ 1) : decodeNum f e1 bs = decodeNum f e2 bs := by
  unfold decodeNum
  rw [reverse_short h]
  simp [ite_self]

theorem readPrim_char_endian {c e1 e2 : Nat} {s : MState} :
    readPrim "char" c e1 s = readPrim "char" c e2 s := by
  have ht : typeNames "char" = some 's' := rfl
  unfold readPrim
  rw [ht]
  simp

theorem readPrim_uint8_endian {e1 e2 : Nat} {s : MState} :
    readPrim "uint8" 1 e1 s = readPrim "uint8" 1 e2 s := by
  have ht : typeNames "uint8" = some 'B' := rfl
  unfold readPrim
  rw [ht]
  simp only
  split
  · rw [decodeNum_endian_short
      (le_trans (by rw [List.length_take]; exact min_le_left _ _)
        (by decide : fmtSize 'B' ≤ 1))]
  · rfl

theorem readStruct_endian_indep {fs : FlatScheme} {e1 e2 : Nat} {s : MState}
    (hind : ∀ x ∈ fs, ∀ s2 : MState,
      readPrim x.2.1 x.2.2 e1 s2 = readPrim x.2.1 x.2.2 e2 s2) :
    readStruct fs e1 s = readStruct fs e2 s := by
  induction fs generalizing s with
  | nil => rfl
  | cons x rest ih =>
    obtain ⟨name, t, c⟩ := x
    unfold readStruct
    rw [hind _ (List.mem_cons_self _ _) s]
    cases hr : readPrim t c e2 s with
    | error err => rfl
    | ok vs =>
      obtain ⟨v, s1⟩ := vs
      simp only
      rw [ih (fun y hy s2 => hind y (List.mem_cons_of_mem _ hy) s2)]

/-- C9.  Reading the identification-block schema from any buffer of at
least 16 bytes yields the identical result under the little-endian
parameter (1) and the big-endian parameter (2): every field of
`Elf_Ident` is a raw byte block or a single byte, so the byte order is
irrelevant. -/
theorem C9_ident_order_independent (b : List Nat) (h : 16 ≤ b.length) :
    readStruct Elf_Ident 1 ⟨b, 0⟩ = readStruct Elf_Ident 2 ⟨b, 0⟩ := by
  apply readStruct_endian_indep
  intro x hx s2
  unfold Elf_Ident at hx
  simp only [List.mem_cons, List.not_mem_nil, or_false] at hx
  rcases hx with rfl | rfl | rfl | rfl | rfl | rfl | rfl <;>
    first
      | exact readPrim_char_endian
      | exact readPrim_uint8_endian

theorem C9_witness :
    16 ≤ (List.replicate 16 0).length ∧
    readStruct Elf_Ident 1 ⟨List.replicate 16 0, 0⟩ =
      readStruct Elf_Ident 2 ⟨List.replicate 16 0, 0⟩ :=
  ⟨by decide, C9_ident_order_independent _ (by decide)⟩

theorem decodeNum_ne_one {f : Char} {e : Nat} {bs : List Nat} (he : e ≠ 1) :
    decodeNum f e bs = decodeNum f 2 bs := by
  unfold decodeNum
  rw [if_neg he, if_neg (by omega : ¬ (2 : Nat) = 1)]

/-- C4 amended.  The code never rejects a data-encoding byte: every
endian parameter other than 1 (little) is treated exactly as 2 (big) by
the marshaller's read, so parsing proceeds under big-endian
interpretation instead of failing (see `C4_cx` for a full parse that
succeeds with data-encoding byte 0). -/
theorem C4_nonlittle_reads_big (t : String) (c e : Nat) (s : MState)
    (he : e ≠ 1) : readPrim t c e s = readPrim t c 2 s := by
  unfold readPrim
  cases htn : typeNames t with
  | none => rfl
  | some f =>
    simp only
    split
    · split
      · rfl
      · split
        · rfl
        · rw [decodeNum_ne_one he]
    · rfl

theorem C4_nonlittle_reads_big_witness :
    (0 : Nat) ≠ 1 ∧
    readPrim "uint16" 1 0 ⟨[2, 0], 0⟩ = readPrim "uint16" 1 2 ⟨[2, 0], 0⟩ :=
  ⟨by decide, C4_nonlittle_reads_big "uint16" 1 0 ⟨[2, 0], 0⟩ (by decide)⟩

theorem readIdent_eval {b : List Nat} {e : Nat} (h16 : 16 ≤ b.length) :
    ∃ m2, readStruct Elf_Ident e ⟨b, 0⟩ =
      .ok (("ELF_MAG", PValue.bytes (b.take 4)) :: m2, ⟨b, 16⟩) := by
  have ht : typeNames "char" = some 's' := rfl
  have hwf1 : wfPrimB "char" 4 = true := by decide
  have hps : primSize "char" 4 = 4 := by decide
  have hle1 : (0 : Nat) + primSize "char" 4 ≤ b.length := by
    rw [hps]
    omega
  have hwfr : wfFields [("EI_CLASS", "uint8", 1), ("EI_DATA", "uint8", 1),
      ("EI_VERSION", "uint8", 1), ("EI_OSABI", "uint8", 1),
      ("EI_ABIVERSION", "uint8", 1), ("EI_PAD", "char", 7)] := by decide
  have hfsr : flatSize [("EI_CLASS", "uint8", 1), ("EI_DATA", "uint8", 1),
      ("EI_VERSION", "uint8", 1), ("EI_OSABI", "uint8", 1),
      ("EI_ABIVERSION", "uint8", 1), ("EI_PAD", "char", 7)] = 12 := by decide
  obtain ⟨m2, hm2⟩ := readStruct_ok_of_le (e := e) (b := b)
    (p := 0 + primSize "char" 4) hwfr (by rw [hps, hfsr]; omega)
  refine ⟨m2, ?_⟩
  unfold Elf_Ident
  unfold readStruct
  rw [readPrim_eq_of_le ht hwf1 hle1]
  simp only
  rw [hm2]
  have hv : primVal 's' e ((b.drop 0).take (primSize "char" 4))
      = PValue.bytes (b.take 4) := by
    unfold primVal
    rw [if_pos rfl, hps, List.drop_zero]
  rw [hv]
  have hpos : 0 + primSize "char" 4 + flatSize [("EI_CLASS", "uint8", 1),
      ("EI_DATA", "uint8", 1), ("EI_VERSION", "uint8", 1),
      ("EI_OSABI", "uint8", 1), ("EI_ABIVERSION", "uint8", 1),
      ("EI_PAD", "char", 7)] = 16 := by decide
  rw [hpos]

/-- C3 amended.  For buffers of at least 16 bytes whose first 4 bytes
are not the signature, parse does fail with MagicMismatch — but only
after reading the entire 16-byte identification block (the
identification read ends at offset 16, not 4), and buffers shorter than
16 bytes fail with TruncatedInput instead (see `C3_cx`). -/
theorem C3_magic_gate_amended (b : List Nat) (h16 : 16 ≤ b.length)
    (hmag : b.take 4 ≠ ELFMAG) :
    parseELF b = .error .magicMismatch ∧
    ∃ m, readStruct Elf_Ident 2 ⟨b, 0⟩ = .ok (m, ⟨b, 16⟩) := by
  obtain ⟨m2, hm2⟩ := readIdent_eval (e := 2) h16
  have hph : parseHead b = .error .magicMismatch := by
    unfold parseHead
    rw [hm2]
    simp only
    rw [if_neg (by
      rw [lookupP_cons_self]
      intro hcon
      exact hmag (PValue.bytes.inj (Option.some.inj hcon)))]
  refine ⟨?_, ⟨_, hm2⟩⟩
  unfold parseELF
  rw [hph]

theorem C3_magic_gate_amended_witness :
    16 ≤ (List.replicate 16 0).length ∧
    (List.replicate 16 0).take 4 ≠ ELFMAG ∧
    (parseELF (List.replicate 16 0) = .error .magicMismatch ∧
     ∃ m, readStruct Elf_Ident 2 ⟨List.replicate 16 0, 0⟩ =
       .ok (m, ⟨List.replicate 16 0, 16⟩)) :=
  ⟨by decide, by decide, C3_magic_gate_amended _ (by decide) (by decide)⟩

theorem readN_ok {fs : FlatScheme} {e n : Nat} {s s' : MState}
    {ms : List FlatMap} (h : readN fs e n s = .ok (ms, s')) :
    ms.length = n ∧ s'.buf = s.buf := by
  induction n generalizing s ms with
  | zero =>
    unfold readN at h
    simp only [Except.ok.injEq, Prod.mk.injEq] at h
    obtain ⟨rfl, rfl⟩ := h
    exact ⟨rfl, rfl⟩
  | succ k ih =>
    unfold readN at h
    cases hr : readStruct fs e s with
    | error err => rw [hr] at h; exact Except.noConfusion h
    | ok ms1 =>
      rw [hr] at h
      obtain ⟨m, s1⟩ := ms1
      simp only at h
      cases hrest : readN fs e k s1 with
      | error err => rw [hrest] at h; exact Except.noConfusion h
      | ok ms2 =>
        rw [hrest] at h
        obtain ⟨ms2', s2⟩ := ms2
        simp only [Except.ok.injEq, Prod.mk.injEq] at h
        obtain ⟨rfl, rfl⟩ := h
        obtain ⟨hl, hb⟩ := ih hrest
        refine ⟨by simp [hl], ?_⟩
        rw [hb, (readStruct_ok_state hr).1]

theorem readN_trunc {fs : FlatScheme} {e n : Nat} {b : List Nat} {p : Nat}
    (hwf : wfFields fs) (hne : fs ≠ [])
    (hlt : b.length - p < n * flatSize fs) :
    readN fs e n ⟨b, p⟩ = .error .truncated := by
  induction n generalizing p with
  | zero => simp at hlt
  | succ k ih =>
    rw [Nat.succ_mul] at hlt
    by_cases hfit : p + flatSize fs ≤ b.length
    · obtain ⟨m, hm⟩ := readStruct_ok_of_le hwf hfit
      unfold readN
      rw [hm]
      simp only
      rw [ih (by omega)]
    · unfold readN
      rw [readStruct_trunc hwf hne (by omega)]

theorem parseHead_ok {b : List Nat} {info : HeadInfo}
    (h : parseHead b = .ok info) :
    info.st.buf = b ∧ (info.cls = 1 ∨ info.cls = 2) := by
  unfold parseHead at h
  cases hid : readStruct Elf_Ident 2 ⟨b, 0⟩ with
  | error err => rw [hid] at h; exact Except.noConfusion h
  | ok es =>
    rw [hid] at h
    obtain ⟨eident, s0⟩ := es
    simp only at h
    split at h
    · split at h
      · split at h
        · cases heh : readStructEx Elf32_Ehdr (getNatP eident "EI_DATA")
              ⟨b, 0⟩ with
          | error err => rw [heh] at h; exact Except.noConfusion h
          | ok hs2 =>
            rw [heh] at h
            obtain ⟨ehdr, s2⟩ := hs2
            simp only [Except.ok.injEq] at h
            subst h
            exact ⟨(readStructEx_ok_state heh).1, Or.inl rfl⟩
        · split at h
          · cases heh : readStructEx Elf64_Ehdr (getNatP eident "EI_DATA")
                ⟨b, 0⟩ with
            | error err => rw [heh] at h; exact Except.noConfusion h
            | ok hs2 =>
              rw [heh] at h
              obtain ⟨ehdr, s2⟩ := hs2
              simp only [Except.ok.injEq] at h
              subst h
              exact ⟨(readStructEx_ok_state heh).1, Or.inr rfl⟩
          · exact Except.noConfusion h
      · exact Except.noConfusion h
    · exact Except.noConfusion h

/-- C5.  If the header bootstrap succeeds and the declared
program-header count times the class-appropriate entry size (32 for
class 1, 56 for class 2) exceeds the bytes available from the
program-header-table offset to end-of-buffer, the whole parse fails
with TruncatedInput and returns no model. -/
theorem C5_phdr_truncation {b : List Nat} {info : HeadInfo}
    (h : parseHead b = .ok info)
    (htr : b.length - getNatV info.ehdr "e_phoff" <
      getNatV info.ehdr "e_phnum" * (if info.cls = 1 then 32 else 56)) :
    parseELF b = .error .truncated := by
  obtain ⟨hbuf, hcls⟩ := parseHead_ok h
  unfold parseELF
  rw [h]
  simp only
  rw [hbuf]
  rcases hcls with h1 | h1
  · rw [if_pos h1] at htr
    rw [if_pos h1]
    rw [readN_trunc (by decide) (by decide)
      (by rw [show flatSize Elf32_Phdr = 32 from by decide]; exact htr)]
  · have hne1 : info.cls ≠ 1 := by omega
    rw [if_neg hne1] at htr
    rw [if_neg hne1]
    rw [readN_trunc (by decide) (by decide)
      (by rw [show flatSize Elf64_Phdr = 56 from by decide]; exact htr)]

def headTrunc : HeadInfo := (parseHead exTrunc).toOption.getD ⟨[], [], 0, 0, ⟨[], 0⟩⟩

theorem C5_phdr_truncation_witness :
    parseHead exTrunc = .ok headTrunc ∧
    exTrunc.length - getNatV headTrunc.ehdr "e_phoff" <
      getNatV headTrunc.ehdr "e_phnum" * (if headTrunc.cls = 1 then 32 else 56) ∧
    parseELF exTrunc = Except.error Err.truncated := by
  refine ⟨by rfl, by decide, ?_⟩
  exact C5_phdr_truncation (by rfl) (by decide)

/-- C8.  For every successfully parsed buffer the program-header
sequence length equals the declared `e_phnum` and the section-header
sequence length equals the declared `e_shnum`; and each class-1
program-header entry read consumes exactly 32 bytes while each class-2
entry consumes exactly 56 bytes. -/
theorem C8_class_width {b : List Nat} {mo : ElfModel} {s : MState}
    (h : parseELF b = .ok (mo, s)) :
    mo.phdrs.length = getNatV mo.ehdr "e_phnum" ∧
    mo.shdrs.length = getNatV mo.ehdr "e_shnum" ∧
    (∀ e p2 b2 m2 s2, readStruct Elf32_Phdr e ⟨b2, p2⟩ = .ok (m2, s2) →
       s2.pos = p2 + 32) ∧
    (∀ e p2 b2 m2 s2, readStruct Elf64_Phdr e ⟨b2, p2⟩ = .ok (m2, s2) →
       s2.pos = p2 + 56) := by
  refine ⟨?_, ?_, ?_, ?_⟩
  case _ =>
    unfold parseELF at h
    cases hph : parseHead b with
    | error err => rw [hph] at h; exact Except.noConfusion h
    | ok info =>
      rw [hph] at h
      simp only at h
      cases hp : readN (if info.cls = 1 then Elf32_Phdr else Elf64_Phdr)
          info.endian (getNatV info.ehdr "e_phnum")
          ⟨info.st.buf, getNatV info.ehdr "e_phoff"⟩ with
      | error err => rw [hp] at h; exact Except.noConfusion h
      | ok ps =>
        rw [hp] at h
        obtain ⟨phdrs, s2⟩ := ps
        simp only at h
        cases hsd : readN (if info.cls = 1 then Elf32_Shdr else Elf64_Shdr)
            info.endian (getNatV info.ehdr "e_shnum")
            ⟨s2.buf, getNatV info.ehdr "e_shoff"⟩ with
        | error err => rw [hsd] at h; exact Except.noConfusion h
        | ok ss =>
          rw [hsd] at h
          obtain ⟨shdrs, s3⟩ := ss
          simp only [Except.ok.injEq, Prod.mk.injEq] at h
          obtain ⟨rfl, -⟩ := h
          exact (readN_ok hp).1
  case _ =>
    unfold parseELF at h
    cases hph : parseHead b with
    | error err => rw [hph] at h; exact Except.noConfusion h
    | ok info =>
      rw [hph] at h
      simp only at h
      cases hp : readN (if info.cls = 1 then Elf32_Phdr else Elf64_Phdr)
          info.endian (getNatV info.ehdr "e_phnum")
          ⟨info.st.buf, getNatV info.ehdr "e_phoff"⟩ with
      | error err => rw [hp] at h; exact Except.noConfusion h
      | ok ps =>
        rw [hp] at h
        obtain ⟨phdrs, s2⟩ := ps
        simp only at h
        cases hsd : readN (if info.cls = 1 then Elf32_Shdr else Elf64_Shdr)
            info.endian (getNatV info.ehdr "e_shnum")
            ⟨s2.buf, getNatV info.ehdr "e_shoff"⟩ with
        | error err => rw [hsd] at h; exact Except.noConfusion h
        | ok ss =>
          rw [hsd] at h
          obtain ⟨shdrs, s3⟩ := ss
          simp only [Except.ok.injEq, Prod.mk.injEq] at h
          obtain ⟨rfl, -⟩ := h
          exact (readN_ok hsd).1
  case _ =>
    intro e p2 b2 m2 s2 hr
    have := (readStruct_ok_state hr).2
    simpa [show flatSize Elf32_Phdr = 32 from by decide] using this
  case _ =>
    intro e p2 b2 m2 s2 hr
    have := (readStruct_ok_state hr).2
    simpa [show flatSize Elf64_Phdr = 56 from by decide] using this

def moPh : ElfModel := ((parseELF exPh).toOption.map Prod.fst).getD ⟨[], [], [], []⟩

def stPh : MState := ((parseELF exPh).toOption.map Prod.snd).getD ⟨[], 0⟩

set_option maxRecDepth 20000 in
theorem C8_class_width_witness :
    parseELF exPh = .ok (moPh, stPh) ∧
    (moPh.phdrs.length = getNatV moPh.ehdr "e_phnum" ∧
     moPh.shdrs.length = getNatV moPh.ehdr "e_shnum" ∧
     (∀ e p2 b2 m2 s2, readStruct Elf32_Phdr e ⟨b2, p2⟩ = .ok (m2, s2) →
        s2.pos = p2 + 32) ∧
     (∀ e p2 b2 m2 s2, readStruct Elf64_Phdr e ⟨b2, p2⟩ = .ok (m2, s2) →
        s2.pos = p2 + 56)) :=
  ⟨by rfl, @C8_class_width exPh moPh stPh (by rfl)⟩
